import Mathlib

/-!
Verification of the distance-vector routing simulation in `DVA.py`.

The embedding models the program state and routing computations:
* costs are non-negative rationals extended with an infinity sentinel
  (numpy `inf`), modelled as `WithTop ℚ`;
* a routing-table row is a `(source id, destination id, cost)` triple,
  exactly the `[src, dst, cost]` lists the program manipulates;
* the Python `dict` built by `updateDV` is an association list with
  insertion-order semantics: assigning to an existing key keeps its
  position, a new key is appended at the end;
* the graph is the Python dict mapping node names to node objects,
  each node holding its edge list, its routing table `initTable`, and
  its mailbox `updatedInit` of received advertisements.

Networking is modelled by value delivery: `sendDVtoNeighbor` appends the
sender's current table to every receiver's mailbox (the JSON round trip
copies the table by value).  The GUI and print statements have no effect
on the algorithm state and are omitted.
-/

set_option maxHeartbeats 1000000

namespace DVA

/-- Cost values: rationals (Python floats) plus the `np.inf` sentinel. -/
abbrev Cost := WithTop ℚ

/-- A routing table row `[source, destination, cost]`. -/
abbrev Row := String × String × Cost

/-- The mutable state of one `Node` object that the algorithm touches:
its edge list (destination name and weight), its distance-vector table
`initTable`, and its mailbox `updatedInit` of received tables. -/
structure DVNode where
  edges : List (String × ℚ)
  initTable : List Row
  updatedInit : List (List Row)
  deriving DecidableEq

/-- The graph: the Python dict from node name to `Node`, as an
association list in insertion order. -/
structure DVGraph where
  nodes : List (String × DVNode)
  deriving DecidableEq

/-- The dict keys, in insertion order (`list(graph.keys())`). -/
def keys (g : DVGraph) : List String := g.nodes.map Prod.fst

/-- First-match lookup in an association list of nodes (dict access). -/
def lookupIn (l : List (String × DVNode)) (n : String) : Option DVNode :=
  match l with
  | [] => none
  | p :: ps => if p.1 = n then some p.2 else lookupIn ps n

/-- `graph[n]`, if present. -/
def getND (g : DVGraph) (n : String) : Option DVNode := lookupIn g.nodes n

/-- `graph[n].initTable` (empty for an absent node). -/
def tableOf (g : DVGraph) (n : String) : List Row :=
  match getND g n with
  | some nd => nd.initTable
  | none => []

/-- `graph[n].updatedInit` (empty for an absent node). -/
def mailboxOf (g : DVGraph) (n : String) : List (List Row) :=
  match getND g n with
  | some nd => nd.updatedInit
  | none => []

/-- `graph[n].edges` (empty for an absent node). -/
def edgesOf (g : DVGraph) (n : String) : List (String × ℚ) :=
  match getND g n with
  | some nd => nd.edges
  | none => []

/-- Rewrite every node's data with a (name-dependent) function.  All the
state mutations of the program are instances of this. -/
def mapNodes (F : String → DVNode → DVNode) (g : DVGraph) : DVGraph :=
  ⟨g.nodes.map (fun p => (p.1, F p.1 p.2))⟩

/-- Mutate the data of the single node `n` (`graph[n].x = ...`). -/
def modifyND (g : DVGraph) (n : String) (f : DVNode → DVNode) : DVGraph :=
  mapNodes (fun m nd => if m = n then f nd else nd) g

/-- `calculate_cost(graph, s, d)` from `DVA.py`: `0` to itself, the first
matching direct edge weight, else `np.inf` (also when `s` is absent, in
which case `edgesOf` is empty and the scan falls through). -/
def calculate_cost (g : DVGraph) (s d : String) : Cost :=
  if s = d then 0
  else
    match (edgesOf g s).find? (fun e => e.1 = d) with
    | some e => (e.2 : Cost)
    | none => ⊤

/-- `initDVtable(graph)`: append, for every node `n` and every key `d`
in order, the row `[n, d, calculate_cost(g, n, d)]` to `n`'s table. -/
def initDVtable (g : DVGraph) : DVGraph :=
  mapNodes
    (fun n nd =>
      { nd with initTable := nd.initTable ++ (keys g).map (fun d => (n, d, calculate_cost g n d)) })
    g

/-- The tables delivered to `dest`'s mailbox by one `sendDVtoNeighbor`
pass: every other node `s` with a finite, non-zero direct cost to `dest`
sends its entire current table, in key order. -/
def senderTablesFor (g : DVGraph) (dest : String) : List (List Row) :=
  (keys g).filterMap
    (fun s =>
      if s ≠ dest ∧ calculate_cost g s dest ≠ ⊤ ∧ calculate_cost g s dest ≠ 0 then
        some (tableOf g s)
      else none)

/-- `sendDVtoNeighbor(graph)`: all sends of one broadcast phase, with
messages accumulated in each receiver's mailbox. -/
def sendDVtoNeighbor (g : DVGraph) : DVGraph :=
  mapNodes (fun n nd => { nd with updatedInit := nd.updatedInit ++ senderTablesFor g n }) g

/-- The Python dict `dest ↦ cost` built and updated by `updateDV`. -/
abbrev DVDict := List (String × Cost)

/-- Dict lookup (first match; keys are unique for dicts built here). -/
def dlookup (d : DVDict) (k : String) : Option Cost :=
  match d with
  | [] => none
  | p :: ps => if p.1 = k then some p.2 else dlookup ps k

/-- Dict assignment `d[k] = v`: overwrite in place if the key exists,
else append at the end — Python dict insertion-order semantics. -/
def dinsert (d : DVDict) (k : String) (v : Cost) : DVDict :=
  match d with
  | [] => [(k, v)]
  | p :: ps => if p.1 = k then (k, v) :: ps else p :: dinsert ps k v

/-- `{dst: cost for _, dst, cost in table}`: the dict of a table, last
occurrence of a destination winning, first-occurrence order kept. -/
def dictOfTable (t : List Row) : DVDict :=
  t.foldl (fun d r => dinsert d r.2.1 r.2.2) []

/-- `[[n, dst, cost] for dst, cost in d.items()]`. -/
def rebuild (n : String) (d : DVDict) : List Row :=
  d.map (fun p => (n, p.1, p.2))

/-- Processing of one received row `(src, dst, cost)` by node `n` in
`updateDV`: skip rows advertised by `n` itself and rows whose advertiser
has no dict entry at all; otherwise adopt
`candidate = own_dv_dict[src] + cost` exactly when `dst` is a new key or
the candidate is strictly smaller, setting the changed flag. -/
def step (n : String) (acc : DVDict × Bool) (r : Row) : DVDict × Bool :=
  if r.1 = n then acc
  else
    match dlookup acc.1 r.1 with
    | none => acc
    | some sc =>
      match dlookup acc.1 r.2.1 with
      | none => (dinsert acc.1 r.2.1 (sc + r.2.2), true)
      | some cur => if sc + r.2.2 < cur then (dinsert acc.1 r.2.1 (sc + r.2.2), true) else acc

/-- Inner loop of `updateDV`: fold `step` over the rows of one received
table. -/
def processRows (n : String) (acc : DVDict × Bool) (rows : List Row) : DVDict × Bool :=
  rows.foldl (step n) acc

/-- Outer loop of `updateDV`: fold over all received tables. -/
def processTables (n : String) (acc : DVDict × Bool) (msgs : List (List Row)) : DVDict × Bool :=
  msgs.foldl (processRows n) acc

/-- `updateDV(graph, n)`: rebuild `n`'s table from the dict after
processing the whole mailbox (which is never cleared), store it, and
return the graph, the new table and the changed flag. -/
def updateDV (g : DVGraph) (n : String) : DVGraph × List Row × Bool :=
  let d0 := dictOfTable (tableOf g n)
  let res := processTables n (d0, false) (mailboxOf g n)
  let t := rebuild n res.1
  (modifyND g n (fun nd => { nd with initTable := t }), t, res.2)

/-- The update loop of one cycle: `for node in graph: updateDV(...)`,
accumulating whether any node changed. -/
def updateAllAux (ns : List String) (acc : DVGraph × Bool) : DVGraph × Bool :=
  ns.foldl (fun a n => ((updateDV a.1 n).1, a.2 || (updateDV a.1 n).2.2)) acc

/-- One full cycle of either algorithm: broadcast, then update every
node in key order.  The boolean is true iff at least one node changed. -/
def roundStep (g : DVGraph) : DVGraph × Bool :=
  updateAllAux (keys g) (sendDVtoNeighbor g, false)

/-- How a run of the convergence loop ended: stability detected, the
user declined to continue and the process was killed with `os._exit(1)`
(stepped mode only), or the cycle cap was hit. -/
inductive RunExit where
  | stable
  | userExit
  | cap
  deriving DecidableEq

/-- The loop of `DVAlgorithmBreaks`, with the user's continue/halt
answers injected as `dec` (true = continue).  `fuel` is the number of
cycles the `cycles < max_cycles` guard still allows; `cycles` counts
executed cycles.  Returns the final graph, the cycle count, and how the
run ended — `RunExit.userExit` marks the `os._exit(1)` call. -/
def breaksGo : Nat → DVGraph → (Nat → Bool) → Nat → DVGraph × Nat × RunExit
  | 0, g, _, cycles => (g, cycles, .cap)
  | fuel + 1, g, dec, cycles =>
    if (roundStep g).2 = false then ((roundStep g).1, cycles + 1, .stable)
    else if dec (cycles + 1) = false then ((roundStep g).1, cycles + 1, .userExit)
    else if fuel = 0 then ((roundStep g).1, cycles + 1, .cap)
    else breaksGo fuel (roundStep g).1 dec (cycles + 1)

/-- `DVAlgorithmBreaks(graph, window)` with the continuation answers
injected: at most `len(graph) * 50` cycles. -/
def DVAlgorithmBreaks (g : DVGraph) (dec : Nat → Bool) : DVGraph × Nat × RunExit :=
  breaksGo ((keys g).length * 50) g dec 0

/-- The loop of `DVAlgorithmNoBreaks`: same cycle body, no continuation
query, and the cap test `cycles >= max_cycles` only runs after a cycle
(the `while not stable` loop always executes at least one cycle). -/
def noBreaksGo : Nat → DVGraph → Nat → Nat → DVGraph × Nat × RunExit
  | 0, g, cycles, _ =>
    if (roundStep g).2 = false then ((roundStep g).1, cycles + 1, .stable)
    else ((roundStep g).1, cycles + 1, .cap)
  | fuel + 1, g, cycles, maxc =>
    if (roundStep g).2 = false then ((roundStep g).1, cycles + 1, .stable)
    else if maxc ≤ cycles + 1 then ((roundStep g).1, cycles + 1, .cap)
    else noBreaksGo fuel (roundStep g).1 (cycles + 1) maxc

/-- `DVAlgorithmNoBreaks(graph, window)`. -/
def DVAlgorithmNoBreaks (g : DVGraph) : DVGraph × Nat × RunExit :=
  noBreaksGo ((keys g).length * 50) g 0 ((keys g).length * 50)

/-- Result of `DVAlgoLinkChange`: normal completion, or the
`'Not Exist'` return for an absent node (the LinkNotFound failure). -/
inductive LinkStatus where
  | ok
  | notExist
  deriving DecidableEq

/-- Overwrite the first row `[a, b, _]` with `[a, b, c]`; no-op when no
row matches (the loop in `DVAlgoLinkChange` then merely prints). -/
def replaceFirst (t : List Row) (a b : String) (c : Cost) : List Row :=
  match t with
  | [] => []
  | r :: rs => if r.1 = a ∧ r.2.1 = b then (a, b, c) :: rs else r :: replaceFirst rs a b c

/-- Rewrite node `n`'s table with `f` (`graph[n].initTable = ...`). -/
def setTableWith (g : DVGraph) (n : String) (f : List Row → List Row) : DVGraph :=
  modifyND g n (fun nd => { nd with initTable := f nd.initTable })

/-- `DVAlgoLinkChange(graph, a, b, cost)`: if both names are dict keys,
overwrite the first `[a, b, _]` row of `a`'s table and then the first
`[b, a, _]` row of `b`'s table; otherwise return `'Not Exist'` leaving
the graph alone.  A missing row on one side is only printed about. -/
def DVAlgoLinkChange (g : DVGraph) (a b : String) (c : ℚ) : DVGraph × LinkStatus :=
  if a ∈ keys g ∧ b ∈ keys g then
    (setTableWith (setTableWith g a (fun t => replaceFirst t a b (c : Cost)))
      b (fun t => replaceFirst t b a (c : Cost)), .ok)
  else (g, .notExist)

/-- First row of a table with the given source and destination, if any. -/
def tfind (t : List Row) (s d : String) : Option Cost :=
  match t with
  | [] => none
  | r :: rs => if r.1 = s ∧ r.2.1 = d then some r.2.2 else tfind rs s d

/-- First row of a table with the given destination, if any. -/
def tfindD (t : List Row) (d : String) : Option Cost :=
  match t with
  | [] => none
  | r :: rs => if r.2.1 = d then some r.2.2 else tfindD rs d

/-- The graph has pairwise distinct node names (true of a Python dict). -/
abbrev NodupKeys (g : DVGraph) : Prop := (keys g).Nodup

/-- The `(sender, receiver)` pairs `sendDVtoNeighbor` transmits over. -/
def sendPairs (g : DVGraph) : List (String × String) :=
  (keys g).flatMap
    (fun s =>
      (keys g).filterMap
        (fun d =>
          if s ≠ d ∧ calculate_cost g s d ≠ ⊤ ∧ calculate_cost g s d ≠ 0 then some (s, d)
          else none))

/-- The row-processing rule exactly as claim C1 words it: a row is
ignored precisely when the node's own table has no finite cost entry
for the advertiser; otherwise the candidate is adopted when the
destination is unknown or the candidate is strictly smaller. -/
def claimStep (acc : DVDict × Bool) (r : Row) : DVDict × Bool :=
  match dlookup acc.1 r.1 with
  | none => acc
  | some sc =>
    if sc = ⊤ then acc
    else
      match dlookup acc.1 r.2.1 with
      | none => (dinsert acc.1 r.2.1 (sc + r.2.2), true)
      | some cur => if sc + r.2.2 < cur then (dinsert acc.1 r.2.1 (sc + r.2.2), true) else acc

/-- `updateDV` as claim C1 describes it, for comparison with the code. -/
def updateDV_claimRule (g : DVGraph) (n : String) : DVGraph × List Row × Bool :=
  let d0 := dictOfTable (tableOf g n)
  let res := (mailboxOf g n).foldl (fun acc rows => rows.foldl claimStep acc) (d0, false)
  let t := rebuild n res.1
  (modifyND g n (fun nd => { nd with initTable := t }), t, res.2)

/-- The amended row rule, stated as a decision function: a row is
ignored exactly when the advertiser is the node itself or has no dict
entry at all (finite or infinite); otherwise the ∞-absorbing candidate
`own[src] + cost` is adopted when the destination is a new key or the
candidate is strictly smaller. -/
def amendedAdopt (n : String) (d : DVDict) (r : Row) : Option (String × Cost) :=
  if r.1 = n then none
  else
    match dlookup d r.1 with
    | none => none
    | some sc =>
      match dlookup d r.2.1 with
      | none => some (r.2.1, sc + r.2.2)
      | some cur => if sc + r.2.2 < cur then some (r.2.1, sc + r.2.2) else none

/-- One row of the amended update rule. -/
def amendedStep (n : String) (acc : DVDict × Bool) (r : Row) : DVDict × Bool :=
  match amendedAdopt n acc.1 r with
  | none => acc
  | some kv => (dinsert acc.1 kv.1 kv.2, true)

/-- `updateDV` as the amended claim C1 describes it. -/
def updateDV_amendedRule (g : DVGraph) (n : String) : DVGraph × List Row × Bool :=
  let d0 := dictOfTable (tableOf g n)
  let res := (mailboxOf g n).foldl (fun acc rows => rows.foldl (amendedStep n) acc) (d0, false)
  let t := rebuild n res.1
  (modifyND g n (fun nd => { nd with initTable := t }), t, res.2)

/-- A dict has pairwise distinct keys. -/
def NodupD (d : DVDict) : Prop := (d.map Prod.fst).Nodup

/-- What one cycle computes for node `m`: the dict and changed flag of
`updateDV` run on `m`'s table and its mailbox right after the broadcast
phase appended this cycle's advertisements. -/
def nodeRound (g : DVGraph) (m : String) : DVDict × Bool :=
  processTables m (dictOfTable (tableOf g m), false) (mailboxOf g m ++ senderTablesFor g m)

/-- Node "1" alone, knowing destination "2" only at infinite cost, with
one received advertisement `[["2","3",5], ["1","2",0]]` in its mailbox. -/
def cg1 : DVGraph :=
  ⟨[("1", ⟨[], [("1", "1", (0 : Cost)), ("1", "2", (⊤ : Cost))],
      [[("2", "3", ((5 : ℚ) : Cost)), ("1", "2", ((0 : ℚ) : Cost))]]⟩)]⟩

/-- A converged two-node graph joined by an edge of weight 1. -/
def stable2 : DVGraph :=
  ⟨[("1", ⟨[("2", 1)], [("1", "1", (0 : Cost)), ("1", "2", ((1 : ℚ) : Cost))], []⟩),
    ("2", ⟨[("1", 1)], [("2", "2", (0 : Cost)), ("2", "1", ((1 : ℚ) : Cost))], []⟩)]⟩

/-- Two nodes, both present, but node "1"'s table is empty and node
"2"'s table has only the row `["2","1",7]`. -/
def cs4 : DVGraph :=
  ⟨[("1", ⟨[], [], []⟩),
    ("2", ⟨[], [("2", "1", ((7 : ℚ) : Cost))], []⟩)]⟩

/-- A two-node graph whose node "2" holds a stale row `["9","3",1]`
recorded under a foreign source id. -/
def cs8 : DVGraph :=
  ⟨[("1", ⟨[("2", 1)],
      [("1", "1", (0 : Cost)), ("1", "2", ((1 : ℚ) : Cost)), ("1", "3", ((5 : ℚ) : Cost))], []⟩),
    ("2", ⟨[("1", 1)],
      [("2", "2", (0 : Cost)), ("2", "1", ((1 : ℚ) : Cost)), ("9", "3", ((1 : ℚ) : Cost))], []⟩)]⟩

/-- The topology of the spec's worked example: edges (1,2,3), (2,3,1),
(1,3,10), with empty tables and mailboxes. -/
def g3 : DVGraph :=
  ⟨[("1", ⟨[("2", 3), ("3", 10)], [], []⟩),
    ("2", ⟨[("1", 3), ("3", 1)], [], []⟩),
    ("3", ⟨[("2", 1), ("1", 10)], [], []⟩)]⟩

/-- The worked example right after `initDVtable`. -/
def g3i : DVGraph := initDVtable g3

/-- The empty graph (an input file with no edge lines). -/
def emptyG : DVGraph := ⟨[]⟩

/-! ### Association-list lookup lemmas -/

theorem lookupIn_map_keyed (F : String → DVNode → DVNode) (l : List (String × DVNode))
    (n : String) :
    lookupIn (l.map fun p => (p.1, F p.1 p.2)) n = (lookupIn l n).map (F n) := by
  induction l with
  | nil => rfl
  | cons p ps ih =>
    simp only [List.map_cons, lookupIn]
    by_cases h : p.1 = n
    · subst h
      simp [lookupIn]
    · simp only [h, if_false, ih]

theorem getND_mapNodes (F : String → DVNode → DVNode) (g : DVGraph) (n : String) :
    getND (mapNodes F g) n = (getND g n).map (F n) := by
  cases g with
  | mk l => exact lookupIn_map_keyed F l n

theorem keys_mapNodes (F : String → DVNode → DVNode) (g : DVGraph) :
    keys (mapNodes F g) = keys g := by
  cases g with
  | mk l =>
    simp only [keys, mapNodes, List.map_map]
    rfl

theorem mem_keys_iff_isSome (g : DVGraph) (n : String) :
    n ∈ keys g ↔ (getND g n).isSome := by
  cases g with
  | mk l =>
    show n ∈ l.map Prod.fst ↔ (lookupIn l n).isSome
    induction l with
    | nil => simp [lookupIn]
    | cons p ps ih =>
      simp only [List.map_cons, List.mem_cons, lookupIn]
      by_cases h : p.1 = n
      · simp [h]
      · simp only [h, if_false, ← ih]
        constructor
        · rintro (rfl | hm)
          · exact absurd rfl h
          · exact hm
        · exact Or.inr

theorem getND_modifyND_self (g : DVGraph) (n : String) (f : DVNode → DVNode) :
    getND (modifyND g n f) n = (getND g n).map f := by
  rw [modifyND, getND_mapNodes]
  simp

theorem getND_modifyND_other (g : DVGraph) (n m : String) (f : DVNode → DVNode) (h : m ≠ n) :
    getND (modifyND g n f) m = getND g m := by
  rw [modifyND, getND_mapNodes]
  simp only [h, if_false]
  cases getND g m <;> rfl

theorem keys_modifyND (g : DVGraph) (n : String) (f : DVNode → DVNode) :
    keys (modifyND g n f) = keys g :=
  keys_mapNodes _ g

/-! ### Dict lemmas -/

theorem dlookup_dinsert_self (d : DVDict) (k : String) (v : Cost) :
    dlookup (dinsert d k v) k = some v := by
  induction d with
  | nil => simp [dinsert, dlookup]
  | cons p ps ih =>
    simp only [dinsert]
    by_cases h : p.1 = k
    · simp [h, dlookup]
    · simp only [h, if_false, dlookup, ih]

theorem dlookup_dinsert_other (d : DVDict) (k k' : String) (v : Cost) (h : k' ≠ k) :
    dlookup (dinsert d k v) k' = dlookup d k' := by
  induction d with
  | nil => simp [dinsert, dlookup, Ne.symm h]
  | cons p ps ih =>
    simp only [dinsert]
    by_cases hp : p.1 = k
    · subst hp
      simp [dlookup, Ne.symm h]
    · simp only [hp, if_false, dlookup, ih]

theorem dinsert_of_dlookup_none (d : DVDict) (k : String) (v : Cost)
    (h : dlookup d k = none) : dinsert d k v = d ++ [(k, v)] := by
  induction d with
  | nil => rfl
  | cons p ps ih =>
    simp only [dlookup] at h
    by_cases hp : p.1 = k
    · simp [hp] at h
    · simp only [hp, if_false] at h
      simp only [dinsert, hp, if_false, List.cons_append, ih h]

theorem dlookup_eq_none_iff (d : DVDict) (k : String) :
    dlookup d k = none ↔ k ∉ d.map Prod.fst := by
  induction d with
  | nil => simp [dlookup]
  | cons p ps ih =>
    simp only [dlookup, List.map_cons, List.mem_cons]
    by_cases hp : p.1 = k
    · simp [hp]
    · simp only [hp, if_false, ih]
      constructor
      · intro h hc
        rcases hc with hc | hc
        · exact hp hc.symm
        · exact h hc
      · intro h hc
        exact h (Or.inr hc)

theorem dlookup_mem (d : DVDict) (k : String) (v : Cost) (h : dlookup d k = some v) :
    (k, v) ∈ d := by
  induction d with
  | nil => simp [dlookup] at h
  | cons p ps ih =>
    simp only [dlookup] at h
    by_cases hp : p.1 = k
    · simp only [hp, if_true, Option.some.injEq] at h
      have hpe : p = (k, v) := by
        cases p
        simp_all

      rw [hpe]
      exact List.mem_cons_self _ _
    · simp only [hp, if_false] at h
      exact List.mem_cons_of_mem _ (ih h)

theorem mem_dinsert (d : DVDict) (k : String) (v : Cost) (p : String × Cost)
    (h : p ∈ dinsert d k v) : p ∈ d ∨ p = (k, v) := by
  induction d with
  | nil => simpa [dinsert] using h
  | cons q qs ih =>
    simp only [dinsert] at h
    by_cases hq : q.1 = k
    · simp only [hq, if_true, List.mem_cons] at h
      rcases h with h | h
      · exact Or.inr h
      · exact Or.inl (List.mem_cons_of_mem _ h)
    · simp only [hq, if_false, List.mem_cons] at h
      rcases h with h | h
      · exact Or.inl (h ▸ List.mem_cons_self _ _)
      · rcases ih h with h | h
        · exact Or.inl (List.mem_cons_of_mem _ h)
        · exact Or.inr h

theorem keys_dinsert_mem (d : DVDict) (k : String) (v : Cost)
    (h : (dlookup d k).isSome) : (dinsert d k v).map Prod.fst = d.map Prod.fst := by
  induction d with
  | nil => simp [dlookup] at h
  | cons p ps ih =>
    simp only [dlookup] at h
    simp only [dinsert]
    by_cases hp : p.1 = k
    · simp [hp]
    · simp only [hp, if_false] at h
      simp only [hp, if_false, List.map_cons, ih h]

theorem nodupD_dinsert (d : DVDict) (k : String) (v : Cost) (h : NodupD d) :
    NodupD (dinsert d k v) := by
  rcases hk : dlookup d k with _ | w
  · rw [NodupD, dinsert_of_dlookup_none d k v hk]
    simp only [List.map_append, List.map_cons, List.map_nil]
    rw [List.nodup_append]
    refine ⟨h, List.nodup_singleton k, ?_⟩
    intro a ha hb
    simp only [List.mem_singleton] at hb
    subst hb
    exact ((dlookup_eq_none_iff d a).mp hk) ha
  · rw [NodupD, keys_dinsert_mem d k v (by simp [hk])]
    exact h

theorem nodupD_dictOfTable (t : List Row) : NodupD (dictOfTable t) := by
  suffices h : ∀ d : DVDict, NodupD d →
      NodupD (t.foldl (fun d r => dinsert d r.2.1 r.2.2) d) by
    exact h [] (by simp [NodupD])
  induction t with
  | nil => intro d hd; exact hd
  | cons r rs ih =>
    intro d hd
    exact ih _ (nodupD_dinsert d r.2.1 r.2.2 hd)

theorem mem_dictOfTable (t : List Row) (p : String × Cost) (h : p ∈ dictOfTable t) :
    ∃ s, (s, p.1, p.2) ∈ t := by
  suffices hgen : ∀ d : DVDict, p ∈ t.foldl (fun d r => dinsert d r.2.1 r.2.2) d →
      p ∈ d ∨ ∃ s, (s, p.1, p.2) ∈ t by
    rcases hgen [] h with hc | hc
    · simp at hc
    · exact hc
  clear h
  induction t with
  | nil =>
    intro d hd
    exact Or.inl hd
  | cons r rs ih =>
    intro d hd
    rw [List.foldl_cons] at hd
    rcases ih (dinsert d r.2.1 r.2.2) hd with hc | ⟨s, hs⟩
    · rcases mem_dinsert _ _ _ _ hc with hc' | hc'
      · exact Or.inl hc'
      · refine Or.inr ⟨r.1, ?_⟩
        simp only [List.mem_cons]
        left
        rw [hc']
    · exact Or.inr ⟨s, List.mem_cons_of_mem _ hs⟩

theorem dfold_append (d : DVDict) :
    ∀ acc : DVDict, (∀ k, (dlookup acc k).isSome → k ∉ d.map Prod.fst) → NodupD d →
      d.foldl (fun a p => dinsert a p.1 p.2) acc = acc ++ d := by
  induction d with
  | nil => intro acc _ _; simp
  | cons p ps ih =>
    intro acc hdisj hnd
    have hnone : dlookup acc p.1 = none := by
      rcases hl : dlookup acc p.1 with _ | w
      · rfl
      · exact absurd (List.mem_cons_self _ _) (hdisj p.1 (by simp [hl]))
    have hstep : dinsert acc p.1 p.2 = acc ++ [p] := by
      have := dinsert_of_dlookup_none acc p.1 p.2 hnone
      cases p
      simpa using this
    simp only [List.foldl_cons, hstep]
    rw [ih (acc ++ [p]) ?_ ?_]
    · simp
    · intro k hk
      rw [NodupD, List.map_cons, List.nodup_cons] at hnd
      by_cases hkp : k = p.1
      · subst hkp
        exact hnd.1
      · intro hmem
        have : (dlookup acc k).isSome := by
          rcases hsp : dlookup (acc ++ [p]) k with _ | w
          · rw [hsp] at hk; simp at hk
          · have := dlookup_mem _ _ _ hsp
            rcases List.mem_append.mp this with hm | hm
            · rcases hla : dlookup acc k with _ | u
              · exact absurd ((dlookup_eq_none_iff acc k).mp hla)
                  (by simpa using List.mem_map_of_mem Prod.fst hm)
              · simp [hla]
            · simp only [List.mem_singleton] at hm
              exact absurd (congrArg Prod.fst hm) hkp
        exact hdisj k this (List.mem_cons_of_mem _ hmem)
    · rw [NodupD, List.map_cons, List.nodup_cons] at hnd
      exact hnd.2

theorem dictOfTable_rebuild (n : String) (d : DVDict) (h : NodupD d) :
    dictOfTable (rebuild n d) = d := by
  rw [dictOfTable, rebuild]
  rw [List.foldl_map]
  have : (fun (a : DVDict) (p : String × Cost) => dinsert a (n, p.1, p.2).2.1 (n, p.1, p.2).2.2)
      = fun (a : DVDict) (p : String × Cost) => dinsert a p.1 p.2 := rfl
  rw [this, dfold_append d [] (by intro k hk; simp [dlookup] at hk) h]
  simp

theorem mem_rebuild (n : String) (d : DVDict) (r : Row) (h : r ∈ rebuild n d) :
    r.1 = n ∧ (r.2.1, r.2.2) ∈ d := by
  rw [rebuild] at h
  rcases List.mem_map.mp h with ⟨p, hp, hr⟩
  subst hr
  exact ⟨rfl, hp⟩

theorem rebuild_subset (n : String) (t : List Row) (hsrc : ∀ r ∈ t, r.1 = n) :
    ∀ r ∈ rebuild n (dictOfTable t), r ∈ t := by
  intro r hr
  obtain ⟨h1, h2⟩ := mem_rebuild n _ r hr
  obtain ⟨s, hs⟩ := mem_dictOfTable t _ h2
  have : s = n := hsrc _ hs
  subst this
  have : r = (s, r.2.1, r.2.2) := by rw [← h1]
  rw [this]
  exact hs

/-! ### Row-processing lemmas -/

theorem step_false_cases (n : String) (d : DVDict) (r : Row) :
    step n (d, false) r = (d, false) ∨
      ∃ sc, r.1 ≠ n ∧ dlookup d r.1 = some sc ∧
        step n (d, false) r = (dinsert d r.2.1 (sc + r.2.2), true) ∧
        (dlookup d r.2.1 = none ∨ ∃ cur, dlookup d r.2.1 = some cur ∧ sc + r.2.2 < cur) := by
  by_cases h1 : r.1 = n
  · left
    simp [step, h1]
  · rcases h2 : dlookup d r.1 with _ | sc
    · left
      simp [step, h1, h2]
    · rcases h3 : dlookup d r.2.1 with _ | cur
      · right
        exact ⟨sc, h1, rfl, by simp [step, h1, h2, h3], Or.inl rfl⟩
      · by_cases h4 : sc + r.2.2 < cur
        · right
          exact ⟨sc, h1, rfl, by simp [step, h1, h2, h3, h4], Or.inr ⟨cur, rfl, h4⟩⟩
        · left
          simp [step, h1, h2, h3, h4]

theorem step_cases (n : String) (acc : DVDict × Bool) (r : Row) :
    step n acc r = acc ∨ ∃ k v, step n acc r = (dinsert acc.1 k v, true) := by
  by_cases h1 : r.1 = n
  · left
    simp [step, h1]
  · rcases h2 : dlookup acc.1 r.1 with _ | sc
    · left
      simp [step, h1, h2]
    · rcases h3 : dlookup acc.1 r.2.1 with _ | cur
      · right
        exact ⟨r.2.1, sc + r.2.2, by simp [step, h1, h2, h3]⟩
      · by_cases h4 : sc + r.2.2 < cur
        · right
          exact ⟨r.2.1, sc + r.2.2, by simp [step, h1, h2, h3, h4]⟩
        · left
          simp [step, h1, h2, h3, h4]

theorem step_flag_mono (n : String) (acc : DVDict × Bool) (r : Row) (h : acc.2 = true) :
    (step n acc r).2 = true := by
  rcases step_cases n acc r with hc | ⟨k, v, hc⟩
  · rw [hc]
    exact h
  · rw [hc]

theorem processRows_flag_mono (n : String) (rows : List Row) :
    ∀ acc : DVDict × Bool, acc.2 = true → (processRows n acc rows).2 = true := by
  induction rows with
  | nil => intro acc h; exact h
  | cons r rs ih =>
    intro acc h
    rw [processRows, List.foldl_cons]
    exact ih (step n acc r) (step_flag_mono n acc r h)

theorem processTables_flag_mono (n : String) (msgs : List (List Row)) :
    ∀ acc : DVDict × Bool, acc.2 = true → (processTables n acc msgs).2 = true := by
  induction msgs with
  | nil => intro acc h; exact h
  | cons t ts ih =>
    intro acc h
    rw [processTables, List.foldl_cons]
    exact ih (processRows n acc t) (processRows_flag_mono n t acc h)

theorem processRows_false (n : String) (rows : List Row) :
    ∀ d d' : DVDict, processRows n (d, false) rows = (d', false) →
      d' = d ∧ ∀ r ∈ rows, step n (d, false) r = (d, false) := by
  induction rows with
  | nil =>
    intro d d' h
    rw [processRows, List.foldl_nil] at h
    injection h with h1 h2
    exact ⟨h1.symm, fun r hr => absurd hr (List.not_mem_nil r)⟩
  | cons r rs ih =>
    intro d d' h
    rw [processRows, List.foldl_cons] at h
    rcases step_cases n (d, false) r with hc | ⟨k, v, hc⟩
    · rw [hc] at h
      obtain ⟨hd, hall⟩ := ih d d' h
      refine ⟨hd, ?_⟩
      intro r' hr'
      rcases List.mem_cons.mp hr' with hr' | hr'
      · rw [hr']
        exact hc
      · exact hall r' hr'
    · rw [hc] at h
      have h' : processRows n (dinsert d k v, true) rs = (d', false) := h
      have := processRows_flag_mono n rs (dinsert d k v, true) rfl
      rw [h'] at this
      simp at this

theorem processRows_fix (n : String) (rows : List Row) (d : DVDict)
    (h : ∀ r ∈ rows, step n (d, false) r = (d, false)) :
    processRows n (d, false) rows = (d, false) := by
  induction rows with
  | nil => rfl
  | cons r rs ih =>
    rw [processRows, List.foldl_cons, h r (List.mem_cons_self _ _)]
    exact ih (fun r' hr' => h r' (List.mem_cons_of_mem _ hr'))

theorem processTables_false (n : String) (msgs : List (List Row)) :
    ∀ d d' : DVDict, processTables n (d, false) msgs = (d', false) →
      d' = d ∧ ∀ t ∈ msgs, ∀ r ∈ t, step n (d, false) r = (d, false) := by
  induction msgs with
  | nil =>
    intro d d' h
    rw [processTables, List.foldl_nil] at h
    injection h with h1 h2
    exact ⟨h1.symm, fun t ht => absurd ht (List.not_mem_nil t)⟩
  | cons t ts ih =>
    intro d d' h
    rw [processTables, List.foldl_cons] at h
    rcases hrow : processRows n (d, false) t with ⟨d1, b1⟩
    rcases b1 with _ | _
    · obtain ⟨hd1, hfix1⟩ := processRows_false n t d d1 hrow
      rw [hrow, hd1] at h
      obtain ⟨hd, hall⟩ := ih d d' h
      refine ⟨hd, ?_⟩
      intro t' ht' r hr
      rcases List.mem_cons.mp ht' with ht' | ht'
      · exact hfix1 r (ht' ▸ hr)
      · exact hall t' ht' r hr
    · rw [hrow] at h
      have h' : processTables n (d1, true) ts = (d', false) := h
      have := processTables_flag_mono n ts (d1, true) rfl
      rw [h'] at this
      simp at this

theorem processTables_fix (n : String) (msgs : List (List Row)) (d : DVDict)
    (h : ∀ t ∈ msgs, ∀ r ∈ t, step n (d, false) r = (d, false)) :
    processTables n (d, false) msgs = (d, false) := by
  induction msgs with
  | nil => rfl
  | cons t ts ih =>
    rw [processTables, List.foldl_cons,
      processRows_fix n t d (fun r hr => h t (List.mem_cons_self _ _) r hr)]
    exact ih (fun t' ht' r hr => h t' (List.mem_cons_of_mem _ ht') r hr)

theorem dlookup_step_le (n : String) (acc : DVDict × Bool) (r : Row) (k : String) (v : Cost)
    (h : dlookup acc.1 k = some v) :
    ∃ v', dlookup (step n acc r).1 k = some v' ∧ v' ≤ v := by
  by_cases h1 : r.1 = n
  · exact ⟨v, by simp [step, h1, h], le_refl v⟩
  · rcases h2 : dlookup acc.1 r.1 with _ | sc
    · exact ⟨v, by simp [step, h1, h2, h], le_refl v⟩
    · rcases h3 : dlookup acc.1 r.2.1 with _ | cur
      · by_cases hk : k = r.2.1
        · rw [hk, h3] at h
          simp at h
        · refine ⟨v, ?_, le_refl v⟩
          simp only [step, h1, if_false, h2, h3]
          rw [dlookup_dinsert_other _ _ _ _ hk]
          exact h
      · by_cases h4 : sc + r.2.2 < cur
        · by_cases hk : k = r.2.1
          · subst hk
            rw [h3] at h
            injection h with h
            subst h
            refine ⟨sc + r.2.2, ?_, le_of_lt h4⟩
            simp only [step, h1, if_false, h2, h3, h4, if_true]
            exact dlookup_dinsert_self _ _ _
          · refine ⟨v, ?_, le_refl v⟩
            simp only [step, h1, if_false, h2, h3, h4, if_true]
            rw [dlookup_dinsert_other _ _ _ _ hk]
            exact h
        · exact ⟨v, by simp [step, h1, h2, h3, h4, h], le_refl v⟩

theorem dlookup_processRows_le (n : String) (rows : List Row) :
    ∀ (acc : DVDict × Bool) (k : String) (v : Cost), dlookup acc.1 k = some v →
      ∃ v', dlookup (processRows n acc rows).1 k = some v' ∧ v' ≤ v := by
  induction rows with
  | nil => intro acc k v h; exact ⟨v, h, le_refl v⟩
  | cons r rs ih =>
    intro acc k v h
    obtain ⟨v1, hv1, hle1⟩ := dlookup_step_le n acc r k v h
    obtain ⟨v', hv', hle'⟩ := ih (step n acc r) k v1 hv1
    exact ⟨v', hv', le_trans hle' hle1⟩

theorem dlookup_processTables_le (n : String) (msgs : List (List Row)) :
    ∀ (acc : DVDict × Bool) (k : String) (v : Cost), dlookup acc.1 k = some v →
      ∃ v', dlookup (processTables n acc msgs).1 k = some v' ∧ v' ≤ v := by
  induction msgs with
  | nil => intro acc k v h; exact ⟨v, h, le_refl v⟩
  | cons t ts ih =>
    intro acc k v h
    obtain ⟨v1, hv1, hle1⟩ := dlookup_processRows_le n t acc k v h
    obtain ⟨v', hv', hle'⟩ := ih (processRows n acc t) k v1 hv1
    exact ⟨v', hv', le_trans hle' hle1⟩

theorem nodupD_step (n : String) (acc : DVDict × Bool) (r : Row) (h : NodupD acc.1) :
    NodupD (step n acc r).1 := by
  rcases step_cases n acc r with hc | ⟨k, v, hc⟩
  · rw [hc]
    exact h
  · rw [hc]
    exact nodupD_dinsert _ _ _ h

theorem nodupD_processRows (n : String) (rows : List Row) :
    ∀ acc : DVDict × Bool, NodupD acc.1 → NodupD (processRows n acc rows).1 := by
  induction rows with
  | nil => intro acc h; exact h
  | cons r rs ih =>
    intro acc h
    rw [processRows, List.foldl_cons]
    exact ih (step n acc r) (nodupD_step n acc r h)

theorem nodupD_processTables (n : String) (msgs : List (List Row)) :
    ∀ acc : DVDict × Bool, NodupD acc.1 → NodupD (processTables n acc msgs).1 := by
  induction msgs with
  | nil => intro acc h; exact h
  | cons t ts ih =>
    intro acc h
    rw [processTables, List.foldl_cons]
    exact ih (processRows n acc t) (nodupD_processRows n t acc h)

/-! ### Effect of the broadcast and update operations on the graph -/

theorem list_any_congr {α : Type} (l : List α) (p q : α → Bool) (h : ∀ a ∈ l, p a = q a) :
    l.any p = l.any q := by
  induction l with
  | nil => rfl
  | cons a as ih =>
    simp only [List.any_cons]
    rw [h a (List.mem_cons_self _ _), ih (fun a' ha' => h a' (List.mem_cons_of_mem _ ha'))]

theorem getND_sendDV (g : DVGraph) (n : String) :
    getND (sendDVtoNeighbor g) n =
      (getND g n).map (fun nd => { nd with updatedInit := nd.updatedInit ++ senderTablesFor g n }) :=
  getND_mapNodes _ g n

theorem tableOf_sendDV (g : DVGraph) (n : String) :
    tableOf (sendDVtoNeighbor g) n = tableOf g n := by
  rcases h : getND g n with _ | nd <;> simp [tableOf, getND_sendDV, h]

theorem edgesOf_sendDV (g : DVGraph) (n : String) :
    edgesOf (sendDVtoNeighbor g) n = edgesOf g n := by
  rcases h : getND g n with _ | nd <;> simp [edgesOf, getND_sendDV, h]

theorem mailboxOf_sendDV (g : DVGraph) (n : String) (h : n ∈ keys g) :
    mailboxOf (sendDVtoNeighbor g) n = mailboxOf g n ++ senderTablesFor g n := by
  have hs := (mem_keys_iff_isSome g n).mp h
  rcases hnd : getND g n with _ | nd
  · rw [hnd] at hs
    simp at hs
  · simp [mailboxOf, getND_sendDV, hnd]

theorem keys_sendDV (g : DVGraph) : keys (sendDVtoNeighbor g) = keys g :=
  keys_mapNodes _ g

theorem updateDV_table_def (g : DVGraph) (n : String) :
    (updateDV g n).2.1 =
      rebuild n (processTables n (dictOfTable (tableOf g n), false) (mailboxOf g n)).1 := rfl

theorem updateDV_flag_def (g : DVGraph) (n : String) :
    (updateDV g n).2.2 =
      (processTables n (dictOfTable (tableOf g n), false) (mailboxOf g n)).2 := rfl

theorem updateDV_graph_def (g : DVGraph) (n : String) :
    (updateDV g n).1 = modifyND g n (fun nd => { nd with initTable := (updateDV g n).2.1 }) := rfl

theorem getND_updateDV_other (g : DVGraph) (n m : String) (h : m ≠ n) :
    getND (updateDV g n).1 m = getND g m := by
  rw [updateDV_graph_def]
  exact getND_modifyND_other g n m _ h

theorem getND_updateDV_self (g : DVGraph) (n : String) :
    getND (updateDV g n).1 n =
      (getND g n).map (fun nd => { nd with initTable := (updateDV g n).2.1 }) := by
  rw [updateDV_graph_def]
  exact getND_modifyND_self g n _

theorem tableOf_updateDV_other (g : DVGraph) (n m : String) (h : m ≠ n) :
    tableOf (updateDV g n).1 m = tableOf g m := by
  rw [tableOf, getND_updateDV_other g n m h, tableOf]

theorem tableOf_updateDV_self (g : DVGraph) (n : String) (h : n ∈ keys g) :
    tableOf (updateDV g n).1 n = (updateDV g n).2.1 := by
  have hs := (mem_keys_iff_isSome g n).mp h
  rcases hnd : getND g n with _ | nd
  · rw [hnd] at hs
    simp at hs
  · simp [tableOf, getND_updateDV_self, hnd]

theorem mailboxOf_updateDV (g : DVGraph) (n m : String) :
    mailboxOf (updateDV g n).1 m = mailboxOf g m := by
  by_cases h : m = n
  · subst h
    rcases hnd : getND g m with _ | nd <;> simp [mailboxOf, getND_updateDV_self, hnd]
  · rw [mailboxOf, getND_updateDV_other g n m h, mailboxOf]

theorem edgesOf_updateDV (g : DVGraph) (n m : String) :
    edgesOf (updateDV g n).1 m = edgesOf g m := by
  by_cases h : m = n
  · subst h
    rcases hnd : getND g m with _ | nd <;> simp [edgesOf, getND_updateDV_self, hnd]
  · rw [edgesOf, getND_updateDV_other g n m h, edgesOf]

theorem keys_updateDV (g : DVGraph) (n : String) : keys (updateDV g n).1 = keys g := by
  rw [updateDV_graph_def]
  exact keys_modifyND g n _

theorem keys_updateAllAux (ns : List String) :
    ∀ acc : DVGraph × Bool, keys (updateAllAux ns acc).1 = keys acc.1 := by
  induction ns with
  | nil => intro acc; rfl
  | cons n ns ih =>
    intro acc
    rw [updateAllAux, List.foldl_cons]
    have := ih ((updateDV acc.1 n).1, acc.2 || (updateDV acc.1 n).2.2)
    rw [updateAllAux] at this
    rw [this]
    exact keys_updateDV acc.1 n

theorem updateAllAux_char (ns : List String) :
    ∀ (g : DVGraph) (b : Bool), ns.Nodup →
      (∀ m, getND (updateAllAux ns (g, b)).1 m =
          if m ∈ ns then
            (getND g m).map (fun nd =>
              { nd with initTable :=
                  rebuild m (processTables m (dictOfTable nd.initTable, false) nd.updatedInit).1 })
          else getND g m) ∧
      (updateAllAux ns (g, b)).2 =
        (b || ns.any (fun m =>
          (processTables m (dictOfTable (tableOf g m), false) (mailboxOf g m)).2)) := by
  induction ns with
  | nil =>
    intro g b _
    constructor
    · intro m
      simp [updateAllAux]
    · simp [updateAllAux]
  | cons n ns ih =>
    intro g b hnd
    obtain ⟨hn, hns⟩ := List.nodup_cons.mp hnd
    have hstep : updateAllAux (n :: ns) (g, b)
        = updateAllAux ns ((updateDV g n).1, b || (updateDV g n).2.2) := by
      rw [updateAllAux, List.foldl_cons, updateAllAux]
    obtain ⟨ihg, ihb⟩ := ih (updateDV g n).1 (b || (updateDV g n).2.2) hns
    constructor
    · intro m
      rw [hstep, ihg m]
      by_cases hm : m ∈ ns
      · have hmn : m ≠ n := fun he => hn (he ▸ hm)
        rw [if_pos hm, if_pos (List.mem_cons_of_mem _ hm), getND_updateDV_other g n m hmn]
      · rw [if_neg hm]
        by_cases hmn : m = n
        · subst hmn
          rw [if_pos (List.mem_cons_self _ _), getND_updateDV_self]
          rcases hnd' : getND g m with _ | nd
          · rfl
          · have htab : tableOf g m = nd.initTable := by simp [tableOf, hnd']
            have hmb : mailboxOf g m = nd.updatedInit := by simp [mailboxOf, hnd']
            simp only [Option.map_some', updateDV_table_def, htab, hmb]
        · rw [getND_updateDV_other g n m hmn,
            if_neg (fun hc => (List.mem_cons.mp hc).elim hmn hm)]
    · rw [hstep, ihb]
      have hsame : ∀ m ∈ ns,
          (processTables m (dictOfTable (tableOf (updateDV g n).1 m), false)
            (mailboxOf (updateDV g n).1 m)).2
          = (processTables m (dictOfTable (tableOf g m), false) (mailboxOf g m)).2 := by
        intro m hm
        have hmn : m ≠ n := fun he => hn (he ▸ hm)
        rw [tableOf_updateDV_other g n m hmn, mailboxOf_updateDV g n m]
      rw [list_any_congr ns _ _ hsame, List.any_cons, ← Bool.or_assoc, updateDV_flag_def]

theorem keys_roundStep (g : DVGraph) : keys (roundStep g).1 = keys g := by
  rw [roundStep, keys_updateAllAux]
  exact keys_sendDV g

theorem roundStep_table (g : DVGraph) (hnd : NodupKeys g) (m : String) (hm : m ∈ keys g) :
    tableOf (roundStep g).1 m = rebuild m (nodeRound g m).1 := by
  obtain ⟨hg, -⟩ := updateAllAux_char (keys g) (sendDVtoNeighbor g) false hnd
  have hs := (mem_keys_iff_isSome g m).mp hm
  rcases hnd' : getND g m with _ | nd
  · rw [hnd'] at hs
    simp at hs
  · have hsend : getND (sendDVtoNeighbor g) m
        = some { nd with updatedInit := nd.updatedInit ++ senderTablesFor g m } := by
      rw [getND_sendDV, hnd']
      rfl
    have := hg m
    rw [if_pos hm, hsend] at this
    rw [roundStep, tableOf, this]
    have htab : tableOf g m = nd.initTable := by simp [tableOf, hnd']
    have hmb : mailboxOf g m = nd.updatedInit := by simp [mailboxOf, hnd']
    simp only [Option.map_some', nodeRound, htab, hmb]

theorem roundStep_mailbox (g : DVGraph) (hnd : NodupKeys g) (m : String) (hm : m ∈ keys g) :
    mailboxOf (roundStep g).1 m = mailboxOf g m ++ senderTablesFor g m := by
  obtain ⟨hg, -⟩ := updateAllAux_char (keys g) (sendDVtoNeighbor g) false hnd
  have hs := (mem_keys_iff_isSome g m).mp hm
  rcases hnd' : getND g m with _ | nd
  · rw [hnd'] at hs
    simp at hs
  · have hsend : getND (sendDVtoNeighbor g) m
        = some { nd with updatedInit := nd.updatedInit ++ senderTablesFor g m } := by
      rw [getND_sendDV, hnd']
      rfl
    have := hg m
    rw [if_pos hm, hsend] at this
    rw [roundStep, mailboxOf, this]
    have hmb : mailboxOf g m = nd.updatedInit := by simp [mailboxOf, hnd']
    simp [hmb]

theorem roundStep_edges (g : DVGraph) (hnd : NodupKeys g) (m : String) :
    edgesOf (roundStep g).1 m = edgesOf g m := by
  obtain ⟨hg, -⟩ := updateAllAux_char (keys g) (sendDVtoNeighbor g) false hnd
  have := hg m
  by_cases hm : m ∈ keys g
  · rw [if_pos hm] at this
    rw [roundStep, edgesOf, this, getND_sendDV]
    rcases hnd' : getND g m with _ | nd <;> simp [edgesOf, hnd']
  · rw [if_neg hm] at this
    rw [roundStep, edgesOf, this, getND_sendDV]
    rcases hnd' : getND g m with _ | nd <;> simp [edgesOf, hnd']

theorem getND_roundStep_isSome (g : DVGraph) (hnd : NodupKeys g) (m : String) :
    (getND (roundStep g).1 m).isSome = (getND g m).isSome := by
  obtain ⟨hg, -⟩ := updateAllAux_char (keys g) (sendDVtoNeighbor g) false hnd
  have := hg m
  by_cases hm : m ∈ keys g
  · rw [if_pos hm] at this
    rw [roundStep, this, getND_sendDV]
    rcases hnd' : getND g m with _ | nd <;> simp [hnd']
  · rw [if_neg hm] at this
    rw [roundStep, this, getND_sendDV]
    rcases hnd' : getND g m with _ | nd <;> simp [hnd']

theorem roundStep_table_not_mem (g : DVGraph) (hnd : NodupKeys g) (m : String)
    (hm : m ∉ keys g) : tableOf (roundStep g).1 m = tableOf g m := by
  obtain ⟨hg, -⟩ := updateAllAux_char (keys g) (sendDVtoNeighbor g) false hnd
  have := hg m
  rw [if_neg hm] at this
  have hnone : getND g m = none := by
    rcases hnd' : getND g m with _ | nd
    · rfl
    · exact absurd ((mem_keys_iff_isSome g m).mpr (by simp [hnd'])) hm
  rw [roundStep, tableOf, this, getND_sendDV, hnone]
  simp [tableOf, hnone]

theorem roundStep_flag (g : DVGraph) (hnd : NodupKeys g) :
    (roundStep g).2 = (keys g).any (fun m => (nodeRound g m).2) := by
  obtain ⟨-, hb⟩ := updateAllAux_char (keys g) (sendDVtoNeighbor g) false hnd
  rw [roundStep, hb, Bool.false_or]
  refine list_any_congr _ _ _ ?_
  intro m hm
  rw [tableOf_sendDV, mailboxOf_sendDV g m hm]
  rfl

theorem calculate_cost_congr (g1 g2 : DVGraph)
    (hedge : ∀ n, edgesOf g1 n = edgesOf g2 n) (s d : String) :
    calculate_cost g1 s d = calculate_cost g2 s d := by
  unfold calculate_cost
  rw [hedge s]

theorem mem_senderTablesFor (g : DVGraph) (d : String) (t : List Row) :
    t ∈ senderTablesFor g d ↔
      ∃ s ∈ keys g, (s ≠ d ∧ calculate_cost g s d ≠ ⊤ ∧ calculate_cost g s d ≠ 0)
        ∧ t = tableOf g s := by
  rw [senderTablesFor, List.mem_filterMap]
  constructor
  · rintro ⟨s, hs, hf⟩
    by_cases hc : s ≠ d ∧ calculate_cost g s d ≠ ⊤ ∧ calculate_cost g s d ≠ 0
    · rw [if_pos hc] at hf
      injection hf with hf
      exact ⟨s, hs, hc, hf.symm⟩
    · rw [if_neg hc] at hf
      exact absurd hf (by simp)
  · rintro ⟨s, hs, hc, ht⟩
    exact ⟨s, hs, by rw [if_pos hc, ht]⟩

/-! ### Lookup and replacement in tables -/

theorem tfind_rebuild (n : String) (d : DVDict) (k : String) :
    tfind (rebuild n d) n k = dlookup d k := by
  induction d with
  | nil => rfl
  | cons p ps ih =>
    rw [rebuild, List.map_cons]
    show tfind ((n, p.1, p.2) :: rebuild n ps) n k = _
    rw [tfind, dlookup]
    by_cases h : p.1 = k
    · simp [h]
    · rw [if_neg (fun hc : n = n ∧ p.1 = k => h hc.2), if_neg h, ih]

theorem tfindD_rebuild (n : String) (d : DVDict) (k : String) :
    tfindD (rebuild n d) k = dlookup d k := by
  induction d with
  | nil => rfl
  | cons p ps ih =>
    rw [rebuild, List.map_cons]
    show tfindD ((n, p.1, p.2) :: rebuild n ps) k = _
    rw [tfindD, dlookup]
    by_cases h : p.1 = k
    · simp [h]
    · simp only [h, if_false, ih]

theorem tfind_map_keys (l : List String) (n k : String) (f : String → Cost) (hk : k ∈ l) :
    tfind (l.map (fun d => (n, d, f d))) n k = some (f k) := by
  induction l with
  | nil => simp at hk
  | cons d ds ih =>
    rw [List.map_cons, tfind]
    by_cases h : d = k
    · subst h
      simp
    · rw [if_neg (fun hc => h hc.2)]
      exact ih (List.mem_cons.mp hk |>.resolve_left (fun hc => h hc.symm))

theorem tfind_replaceFirst_same (t : List Row) (a b : String) (c : Cost)
    (h : ∃ r ∈ t, r.1 = a ∧ r.2.1 = b) :
    tfind (replaceFirst t a b c) a b = some c := by
  induction t with
  | nil => simp at h
  | cons r rs ih =>
    rw [replaceFirst]
    by_cases hr : r.1 = a ∧ r.2.1 = b
    · rw [if_pos hr]
      simp [tfind]
    · rw [if_neg hr, tfind, if_neg hr]
      refine ih ?_
      obtain ⟨r', hr', hp⟩ := h
      rcases List.mem_cons.mp hr' with he | he
      · exact absurd (he ▸ hp) hr
      · exact ⟨r', he, hp⟩

theorem tfind_replaceFirst_other (t : List Row) (a b s d : String) (c : Cost)
    (h : ¬(s = a ∧ d = b)) :
    tfind (replaceFirst t a b c) s d = tfind t s d := by
  induction t with
  | nil => rfl
  | cons r rs ih =>
    rw [replaceFirst]
    by_cases hr : r.1 = a ∧ r.2.1 = b
    · rw [if_pos hr, tfind, tfind]
      have hno : ¬((a, b, c).1 = s ∧ (a, b, c).2.1 = d) := by
        rintro ⟨h1, h2⟩
        exact h ⟨h1.symm, h2.symm⟩
      have hno' : ¬(r.1 = s ∧ r.2.1 = d) := by
        rintro ⟨h1, h2⟩
        exact h ⟨(h1.symm.trans hr.1), (h2.symm.trans hr.2)⟩
      rw [if_neg hno, if_neg hno']
    · rw [if_neg hr, tfind, tfind, ih]

theorem replaceFirst_getElem (t : List Row) (a b : String) (c : Cost) :
    ∀ (i : Nat) (r : Row), t[i]? = some r → ¬(r.1 = a ∧ r.2.1 = b) →
      (replaceFirst t a b c)[i]? = some r := by
  induction t with
  | nil => intro i r h _; simp at h
  | cons q qs ih =>
    intro i r h hr
    rw [replaceFirst]
    by_cases hq : q.1 = a ∧ q.2.1 = b
    · rw [if_pos hq]
      rcases i with _ | j
      · simp only [List.getElem?_cons_zero, Option.some.injEq] at h
        exact absurd (h ▸ hq) hr
      · simp only [List.getElem?_cons_succ] at h ⊢
        exact h
    · rw [if_neg hq]
      rcases i with _ | j
      · simpa using h
      · simp only [List.getElem?_cons_succ] at h ⊢
        exact ih j r h hr

theorem replaceFirst_len (t : List Row) (a b : String) (c : Cost) :
    (replaceFirst t a b c).length = t.length := by
  induction t with
  | nil => rfl
  | cons q qs ih =>
    rw [replaceFirst]
    by_cases hq : q.1 = a ∧ q.2.1 = b
    · rw [if_pos hq]
      simp
    · rw [if_neg hq]
      simp [ih]

/-! ### Effect of `DVAlgoLinkChange` -/

theorem linkChange_notExist (g : DVGraph) (a b : String) (c : ℚ)
    (h : ¬(a ∈ keys g ∧ b ∈ keys g)) : DVAlgoLinkChange g a b c = (g, .notExist) := by
  rw [DVAlgoLinkChange, if_neg h]

theorem linkChange_status_ok (g : DVGraph) (a b : String) (c : ℚ)
    (ha : a ∈ keys g) (hb : b ∈ keys g) : (DVAlgoLinkChange g a b c).2 = .ok := by
  rw [DVAlgoLinkChange, if_pos ⟨ha, hb⟩]

theorem linkChange_graph_def (g : DVGraph) (a b : String) (c : ℚ)
    (ha : a ∈ keys g) (hb : b ∈ keys g) :
    (DVAlgoLinkChange g a b c).1 =
      setTableWith (setTableWith g a (fun t => replaceFirst t a b (c : Cost)))
        b (fun t => replaceFirst t b a (c : Cost)) := by
  rw [DVAlgoLinkChange, if_pos ⟨ha, hb⟩]

theorem edgesOf_setTableWith (g : DVGraph) (n : String) (f : List Row → List Row) (m : String) :
    edgesOf (setTableWith g n f) m = edgesOf g m := by
  by_cases h : m = n
  · subst h
    rw [setTableWith, edgesOf, getND_modifyND_self, edgesOf]
    rcases getND g m with _ | nd <;> rfl
  · rw [setTableWith, edgesOf, getND_modifyND_other g n m _ h, edgesOf]

theorem mailboxOf_setTableWith (g : DVGraph) (n : String) (f : List Row → List Row)
    (m : String) :
    mailboxOf (setTableWith g n f) m = mailboxOf g m := by
  by_cases h : m = n
  · subst h
    rw [setTableWith, mailboxOf, getND_modifyND_self, mailboxOf]
    rcases getND g m with _ | nd <;> rfl
  · rw [setTableWith, mailboxOf, getND_modifyND_other g n m _ h, mailboxOf]

theorem getND_isSome_setTableWith (g : DVGraph) (n : String) (f : List Row → List Row)
    (m : String) :
    (getND (setTableWith g n f) m).isSome = (getND g m).isSome := by
  by_cases h : m = n
  · subst h
    rw [setTableWith, getND_modifyND_self]
    rcases getND g m with _ | nd <;> rfl
  · rw [setTableWith, getND_modifyND_other g n m _ h]

theorem tableOf_setTableWith_self (g : DVGraph) (n : String) (f : List Row → List Row)
    (hn : n ∈ keys g) :
    tableOf (setTableWith g n f) n = f (tableOf g n) := by
  have hs := (mem_keys_iff_isSome g n).mp hn
  rcases hnd : getND g n with _ | nd
  · rw [hnd] at hs
    simp at hs
  · rw [setTableWith, tableOf, getND_modifyND_self, hnd]
    simp [tableOf, hnd]

theorem tableOf_setTableWith_other (g : DVGraph) (n : String) (f : List Row → List Row)
    (m : String) (h : m ≠ n) :
    tableOf (setTableWith g n f) m = tableOf g m := by
  rw [setTableWith, tableOf, getND_modifyND_other g n m _ h, tableOf]

theorem keys_setTableWith (g : DVGraph) (n : String) (f : List Row → List Row) :
    keys (setTableWith g n f) = keys g :=
  keys_modifyND g n _

theorem keys_linkChange (g : DVGraph) (a b : String) (c : ℚ) :
    keys (DVAlgoLinkChange g a b c).1 = keys g := by
  by_cases h : a ∈ keys g ∧ b ∈ keys g
  · rw [linkChange_graph_def g a b c h.1 h.2, keys_setTableWith, keys_setTableWith]
  · rw [linkChange_notExist g a b c h]

theorem tableOf_linkChange_other (g : DVGraph) (a b : String) (c : ℚ) (m : String)
    (hma : m ≠ a) (hmb : m ≠ b) :
    tableOf (DVAlgoLinkChange g a b c).1 m = tableOf g m := by
  by_cases h : a ∈ keys g ∧ b ∈ keys g
  · rw [linkChange_graph_def g a b c h.1 h.2, tableOf_setTableWith_other _ _ _ _ hmb,
      tableOf_setTableWith_other _ _ _ _ hma]
  · rw [linkChange_notExist g a b c h]

theorem tableOf_linkChange_a (g : DVGraph) (a b : String) (c : ℚ)
    (ha : a ∈ keys g) (hb : b ∈ keys g) (hab : a ≠ b) :
    tableOf (DVAlgoLinkChange g a b c).1 a = replaceFirst (tableOf g a) a b (c : Cost) := by
  rw [linkChange_graph_def g a b c ha hb, tableOf_setTableWith_other _ _ _ _ hab,
    tableOf_setTableWith_self g a _ ha]

theorem tableOf_linkChange_b (g : DVGraph) (a b : String) (c : ℚ)
    (ha : a ∈ keys g) (hb : b ∈ keys g) (hab : a ≠ b) :
    tableOf (DVAlgoLinkChange g a b c).1 b = replaceFirst (tableOf g b) b a (c : Cost) := by
  rw [linkChange_graph_def g a b c ha hb,
    tableOf_setTableWith_self _ b _ (by rw [keys_setTableWith]; exact hb),
    tableOf_setTableWith_other _ _ _ _ (Ne.symm hab)]

theorem tableOf_linkChange_selfpair (g : DVGraph) (a : String) (c : ℚ) (ha : a ∈ keys g) :
    tableOf (DVAlgoLinkChange g a a c).1 a
      = replaceFirst (replaceFirst (tableOf g a) a a (c : Cost)) a a (c : Cost) := by
  rw [linkChange_graph_def g a a c ha ha,
    tableOf_setTableWith_self _ a _ (by rw [keys_setTableWith]; exact ha),
    tableOf_setTableWith_self g a _ ha]

/-! ### Initialization -/

theorem getND_initDVtable (g : DVGraph) (n : String) :
    getND (initDVtable g) n =
      (getND g n).map (fun nd =>
        { nd with initTable :=
            nd.initTable ++ (keys g).map (fun d => (n, d, calculate_cost g n d)) }) :=
  getND_mapNodes _ g n

theorem tableOf_initDVtable (g : DVGraph) (n : String) (hn : n ∈ keys g)
    (hempty : tableOf g n = []) :
    tableOf (initDVtable g) n = (keys g).map (fun d => (n, d, calculate_cost g n d)) := by
  have hs := (mem_keys_iff_isSome g n).mp hn
  rcases hnd : getND g n with _ | nd
  · rw [hnd] at hs
    simp at hs
  · have htab : nd.initTable = [] := by
      rw [tableOf, hnd] at hempty
      exact hempty
    rw [tableOf, getND_initDVtable, hnd]
    simp [htab]

theorem filter_eq_of_nodup (l : List String) (d : String) (hnd : l.Nodup) (hd : d ∈ l) :
    l.filter (fun x => x = d) = [d] := by
  induction l with
  | nil => simp at hd
  | cons a as ih =>
    obtain ⟨ha, has⟩ := List.nodup_cons.mp hnd
    by_cases he : a = d
    · subst he
      rw [List.filter_cons_of_pos (by simp)]
      have : as.filter (fun x => x = a) = [] := by
        rw [List.filter_eq_nil_iff]
        intro x hx
        simp only [decide_eq_true_eq]
        rintro rfl
        exact ha hx
      rw [this]
    · rw [List.filter_cons_of_neg (by simp [he])]
      refine ih has ?_
      rcases List.mem_cons.mp hd with hc | hc
      · exact absurd hc.symm he
      · exact hc

/-! ### Preservation of non-negative costs and the self entry -/

theorem step_char (n : String) (acc : DVDict × Bool) (r : Row) :
    step n acc r = acc ∨
      ∃ sc, r.1 ≠ n ∧ dlookup acc.1 r.1 = some sc ∧
        step n acc r = (dinsert acc.1 r.2.1 (sc + r.2.2), true) ∧
        (dlookup acc.1 r.2.1 = none ∨ ∃ cur, dlookup acc.1 r.2.1 = some cur ∧ sc + r.2.2 < cur) := by
  by_cases h1 : r.1 = n
  · left
    simp [step, h1]
  · rcases h2 : dlookup acc.1 r.1 with _ | sc
    · left
      simp [step, h1, h2]
    · rcases h3 : dlookup acc.1 r.2.1 with _ | cur
      · right
        exact ⟨sc, h1, rfl, by simp [step, h1, h2, h3], Or.inl rfl⟩
      · by_cases h4 : sc + r.2.2 < cur
        · right
          exact ⟨sc, h1, rfl, by simp [step, h1, h2, h3, h4], Or.inr ⟨cur, rfl, h4⟩⟩
        · left
          simp [step, h1, h2, h3, h4]

theorem dlookup_nonneg (d : DVDict) (k : String) (v : Cost)
    (hall : ∀ p ∈ d, (0 : Cost) ≤ p.2) (h : dlookup d k = some v) : (0 : Cost) ≤ v :=
  hall (k, v) (dlookup_mem d k v h)

theorem step_inv (n : String) (acc : DVDict × Bool) (r : Row) (hr : (0 : Cost) ≤ r.2.2)
    (hpos : ∀ p ∈ acc.1, (0 : Cost) ≤ p.2) (hself : dlookup acc.1 n = some 0) :
    (∀ p ∈ (step n acc r).1, (0 : Cost) ≤ p.2) ∧ dlookup (step n acc r).1 n = some 0 := by
  rcases step_char n acc r with hc | ⟨sc, hsrc, hsc, hc, hcond⟩
  · rw [hc]
    exact ⟨hpos, hself⟩
  · have hscpos : (0 : Cost) ≤ sc := dlookup_nonneg acc.1 r.1 sc hpos hsc
    have hcand : (0 : Cost) ≤ sc + r.2.2 := add_nonneg hscpos hr
    have hkn : r.2.1 ≠ n := by
      rintro rfl
      rcases hcond with hnone | ⟨cur, hcur, hlt⟩
      · rw [hself] at hnone
        exact Option.noConfusion hnone
      · rw [hself] at hcur
        injection hcur with hcur
        subst hcur
        exact absurd hlt (not_lt_of_le hcand)
    rw [hc]
    constructor
    · intro p hp
      rcases mem_dinsert _ _ _ _ hp with hp' | hp'
      · exact hpos p hp'
      · rw [hp']
        exact hcand
    · rw [dlookup_dinsert_other _ _ _ _ (Ne.symm hkn)]
      exact hself

theorem processRows_inv (n : String) (rows : List Row) :
    ∀ acc : DVDict × Bool, (∀ r ∈ rows, (0 : Cost) ≤ r.2.2) →
      (∀ p ∈ acc.1, (0 : Cost) ≤ p.2) → dlookup acc.1 n = some 0 →
      (∀ p ∈ (processRows n acc rows).1, (0 : Cost) ≤ p.2) ∧
        dlookup (processRows n acc rows).1 n = some 0 := by
  induction rows with
  | nil => intro acc _ hpos hself; exact ⟨hpos, hself⟩
  | cons r rs ih =>
    intro acc hrows hpos hself
    rw [processRows, List.foldl_cons]
    obtain ⟨hpos', hself'⟩ := step_inv n acc r (hrows r (List.mem_cons_self _ _)) hpos hself
    exact ih (step n acc r) (fun r' hr' => hrows r' (List.mem_cons_of_mem _ hr')) hpos' hself'

theorem processTables_inv (n : String) (msgs : List (List Row)) :
    ∀ acc : DVDict × Bool, (∀ t ∈ msgs, ∀ r ∈ t, (0 : Cost) ≤ r.2.2) →
      (∀ p ∈ acc.1, (0 : Cost) ≤ p.2) → dlookup acc.1 n = some 0 →
      (∀ p ∈ (processTables n acc msgs).1, (0 : Cost) ≤ p.2) ∧
        dlookup (processTables n acc msgs).1 n = some 0 := by
  induction msgs with
  | nil => intro acc _ hpos hself; exact ⟨hpos, hself⟩
  | cons t ts ih =>
    intro acc hmsgs hpos hself
    rw [processTables, List.foldl_cons]
    obtain ⟨hpos', hself'⟩ :=
      processRows_inv n t acc (fun r hr => hmsgs t (List.mem_cons_self _ _) r hr) hpos hself
    exact ih (processRows n acc t) (fun t' ht' r hr => hmsgs t' (List.mem_cons_of_mem _ ht') r hr)
      hpos' hself'

/-! ### The convergence loops -/

theorem breaksGo_cycles_le (fuel : Nat) :
    ∀ (g : DVGraph) (dec : Nat → Bool) (cycles : Nat),
      (breaksGo fuel g dec cycles).2.1 ≤ cycles + fuel := by
  induction fuel with
  | zero => intro g dec cycles; exact Nat.le_refl _
  | succ f ih =>
    intro g dec cycles
    rw [breaksGo]
    by_cases h1 : (roundStep g).2 = false
    · rw [if_pos h1]
      exact Nat.add_le_add_left (Nat.le_add_left 1 f) cycles
    · rw [if_neg h1]
      by_cases h2 : dec (cycles + 1) = false
      · rw [if_pos h2]
        exact Nat.add_le_add_left (Nat.le_add_left 1 f) cycles
      · rw [if_neg h2]
        by_cases h3 : f = 0
        · rw [if_pos h3]
          exact Nat.add_le_add_left (Nat.le_add_left 1 f) cycles
        · rw [if_neg h3]
          calc (breaksGo f (roundStep g).1 dec (cycles + 1)).2.1
              ≤ cycles + 1 + f := ih (roundStep g).1 dec (cycles + 1)
            _ = cycles + (f + 1) := by omega

theorem noBreaksGo_cycles_le (fuel : Nat) :
    ∀ (g : DVGraph) (cycles maxc : Nat),
      (noBreaksGo fuel g cycles maxc).2.1 ≤ max maxc (cycles + 1) := by
  induction fuel with
  | zero =>
    intro g cycles maxc
    rw [noBreaksGo]
    by_cases h1 : (roundStep g).2 = false
    · rw [if_pos h1]
      exact le_max_right _ _
    · rw [if_neg h1]
      exact le_max_right _ _
  | succ f ih =>
    intro g cycles maxc
    rw [noBreaksGo]
    by_cases h1 : (roundStep g).2 = false
    · rw [if_pos h1]
      exact le_max_right _ _
    · rw [if_neg h1]
      by_cases h2 : maxc ≤ cycles + 1
      · rw [if_pos h2]
        exact le_max_right _ _
      · rw [if_neg h2]
        calc (noBreaksGo f (roundStep g).1 (cycles + 1) maxc).2.1
            ≤ max maxc (cycles + 1 + 1) := ih (roundStep g).1 (cycles + 1) maxc
          _ ≤ max maxc (cycles + 1) := by omega

theorem breaksGo_userExit (fuel : Nat) :
    ∀ (g : DVGraph) (dec : Nat → Bool) (cycles : Nat) (g' : DVGraph) (c' : Nat),
      breaksGo fuel g dec cycles = (g', c', .userExit) →
      ∃ g0, roundStep g0 = (g', true) ∧ dec c' = false := by
  induction fuel with
  | zero =>
    intro g dec cycles g' c' h
    rw [breaksGo] at h
    injection h with h1 h2
    injection h2 with h2 h3
    exact absurd h3 (by simp)
  | succ f ih =>
    intro g dec cycles g' c' h
    rw [breaksGo] at h
    by_cases h1 : (roundStep g).2 = false
    · rw [if_pos h1] at h
      injection h with ha hb
      injection hb with hb hc
      exact absurd hc (by simp)
    · rw [if_neg h1] at h
      by_cases h2 : dec (cycles + 1) = false
      · rw [if_pos h2] at h
        injection h with ha hb
        injection hb with hb hc
        refine ⟨g, ?_, hb ▸ h2⟩
        have hflag : (roundStep g).2 = true := by
          cases hfl : (roundStep g).2
          · exact absurd hfl h1
          · rfl
        calc roundStep g = ((roundStep g).1, (roundStep g).2) := rfl
          _ = (g', true) := by rw [ha, hflag]
      · rw [if_neg h2] at h
        by_cases h3 : f = 0
        · rw [if_pos h3] at h
          injection h with ha hb
          injection hb with hb hc
          exact absurd hc (by simp)
        · rw [if_neg h3] at h
          exact ih (roundStep g).1 dec (cycles + 1) g' c' h

/-! ### The amended update rule -/

theorem step_eq_amendedStep (n : String) (acc : DVDict × Bool) (r : Row) :
    step n acc r = amendedStep n acc r := by
  rw [step, amendedStep, amendedAdopt]
  by_cases h1 : r.1 = n
  · simp [h1]
  · rcases h2 : dlookup acc.1 r.1 with _ | sc
    · simp [h1, h2]
    · rcases h3 : dlookup acc.1 r.2.1 with _ | cur
      · simp [h1, h2, h3]
      · by_cases h4 : sc + r.2.2 < cur
        · simp [h1, h2, h3, h4]
        · simp [h1, h2, h3, h4]

theorem step_fun_eq (n : String) : step n = amendedStep n :=
  funext fun acc => funext fun r => step_eq_amendedStep n acc r

theorem updateDV_eq_amendedRule (g : DVGraph) (n : String) :
    updateDV g n = updateDV_amendedRule g n := by
  rw [updateDV, updateDV_amendedRule]
  have hpr : processRows n = fun acc rows => rows.foldl (amendedStep n) acc := by
    funext acc rows
    rw [processRows, step_fun_eq]
  rw [processTables.eq_def]
  simp only [hpr]

theorem processRows_true_ne (n : String) (rows : List Row) :
    ∀ d : DVDict, (processRows n (d, false) rows).2 = true →
      (processRows n (d, false) rows).1 ≠ d := by
  induction rows with
  | nil =>
    intro d h
    rw [processRows, List.foldl_nil] at h
    simp at h
  | cons r rs ih =>
    intro d h
    rw [processRows, List.foldl_cons] at h
    rw [processRows, List.foldl_cons]
    rcases step_false_cases n d r with hc | ⟨sc, hsrc, hsc, hc, hcond⟩
    · rw [hc] at h ⊢
      exact ih d h
    · rw [hc]
      have hself : dlookup (dinsert d r.2.1 (sc + r.2.2)) r.2.1 = some (sc + r.2.2) :=
        dlookup_dinsert_self _ _ _
      obtain ⟨v', hv', hle⟩ :=
        dlookup_processRows_le n rs (dinsert d r.2.1 (sc + r.2.2), true) r.2.1 (sc + r.2.2) hself
      intro heq
      have heq' : (processRows n (dinsert d r.2.1 (sc + r.2.2), true) rs).1 = d := heq
      rcases hcond with hnone | ⟨cur, hcur, hlt⟩
      · rw [heq', hnone] at hv'
        exact Option.noConfusion hv'
      · rw [heq', hcur] at hv'
        injection hv' with hv'
        subst hv'
        exact absurd hlt (not_lt_of_le hle)

theorem processTables_eq_flatten (n : String) (msgs : List (List Row)) :
    ∀ acc : DVDict × Bool, processTables n acc msgs = processRows n acc msgs.flatten := by
  induction msgs with
  | nil => intro acc; rfl
  | cons t ts ih =>
    intro acc
    have happ : processRows n acc ((t :: ts).flatten)
        = processRows n (processRows n acc t) ts.flatten := by
      calc processRows n acc (t ++ ts.flatten)
          = (t ++ ts.flatten).foldl (step n) acc := rfl
        _ = ts.flatten.foldl (step n) (t.foldl (step n) acc) := by rw [List.foldl_append]
        _ = processRows n (processRows n acc t) ts.flatten := rfl
    calc processTables n acc (t :: ts)
        = processTables n (processRows n acc t) ts := by
          rw [processTables, List.foldl_cons, processTables]
      _ = processRows n (processRows n acc t) ts.flatten := ih _
      _ = processRows n acc ((t :: ts).flatten) := happ.symm

theorem processTables_true_ne (n : String) (msgs : List (List Row)) (d : DVDict)
    (h : (processTables n (d, false) msgs).2 = true) :
    (processTables n (d, false) msgs).1 ≠ d := by
  rw [processTables_eq_flatten] at h ⊢
  exact processRows_true_ne n msgs.flatten d h

theorem replaceFirst_exists (t : List Row) (a b : String) (c : Cost)
    (h : ∃ r ∈ t, r.1 = a ∧ r.2.1 = b) :
    ∃ r ∈ replaceFirst t a b c, r.1 = a ∧ r.2.1 = b := by
  induction t with
  | nil => simp at h
  | cons q qs ih =>
    rw [replaceFirst]
    by_cases hq : q.1 = a ∧ q.2.1 = b
    · rw [if_pos hq]
      exact ⟨(a, b, c), List.mem_cons_self _ _, rfl, rfl⟩
    · rw [if_neg hq]
      obtain ⟨r, hr, hp⟩ := h
      rcases List.mem_cons.mp hr with he | he
      · exact absurd (he ▸ hp) hq
      · obtain ⟨r', hr', hp'⟩ := ih ⟨r, he, hp⟩
        exact ⟨r', List.mem_cons_of_mem _ hr', hp'⟩

theorem pair_eta_false {α : Type} (p : α × Bool) (h : p.2 = false) : p = (p.1, false) := by
  rw [← h]

/-! ### The claims -/

section
attribute [local semireducible] Rat.add

/-- C1, counterexample: the claim's rule (ignore a row iff the node has
no *finite* cost entry for the advertiser) disagrees with `updateDV` on
the concrete state `cg1`.  The mailbox row `["2","3",5]` must be ignored
per the claim (`own["2"] = ∞` is not finite) yet the code adopts an `∞`
entry for destination `"3"`; the row `["1","2",0]` must be processed per
the claim (`own["1"] = 0` is finite) with candidate `0 < ∞` adopted, yet
the code skips rows whose advertiser is the node itself. -/
theorem C1_counterexample :
    tfindD ((updateDV cg1 "1").2.1) "3" = some ⊤ ∧
    tfindD ((updateDV_claimRule cg1 "1").2.1) "3" = none ∧
    tfindD ((updateDV cg1 "1").2.1) "2" = some ⊤ ∧
    tfindD ((updateDV_claimRule cg1 "1").2.1) "2" = some 0 := by
  refine ⟨by decide, by decide, by decide, by decide⟩

/-- C1 (amended): `updateDV` processes each advertised row
`(advertiserId, dest, advertisedCost)` by ignoring it exactly when the
advertiser is the node itself or the node's table has no entry at all
(finite or infinite) for the advertiser; otherwise the ∞-absorbing
candidate `ownCost(advertiserId) + advertisedCost` is adopted exactly
when `dest` is unknown or the candidate is strictly smaller.  The
returned table is rebuilt from the final mapping, and the changed flag
is true iff at least one candidate was adopted — equivalently, iff the
final mapping differs from the initial one. -/
theorem C1_update_rule (g : DVGraph) (n : String) :
    updateDV g n = updateDV_amendedRule g n ∧
    ((updateDV g n).2.2 = true ↔
      dictOfTable ((updateDV g n).2.1) ≠ dictOfTable (tableOf g n)) := by
  refine ⟨updateDV_eq_amendedRule g n, ?_⟩
  have hd : dictOfTable ((updateDV g n).2.1)
      = (processTables n (dictOfTable (tableOf g n), false) (mailboxOf g n)).1 := by
    rw [updateDV_table_def, dictOfTable_rebuild]
    exact nodupD_processTables n _ _ (nodupD_dictOfTable _)
  rw [updateDV_flag_def, hd]
  constructor
  · exact fun h => processTables_true_ne n _ _ h
  · intro hne
    cases hfl : (processTables n (dictOfTable (tableOf g n), false) (mailboxOf g n)).2
    · exfalso
      have hp := pair_eta_false _ hfl
      obtain ⟨heq, -⟩ := processTables_false n (mailboxOf g n) _ _ hp
      exact hne heq
    · rfl

/-- C2, counterexample: `DVAlgoLinkChange` with `sourceid = destid`
overwrites the self entry.  On the converged two-node graph, the call
`DVAlgoLinkChange(graph, "1", "1", 5)` rewrites entry `("1","1")` from
`0` to `5`, violating the self-distance invariant the claim asserts for
such calls. -/
theorem C2_counterexample :
    tfind (tableOf stable2 "1") "1" "1" = some 0 ∧
    tfind (tableOf (DVAlgoLinkChange stable2 "1" "1" 5).1 "1") "1" "1" = some ((5 : ℚ) : Cost) ∧
    ((5 : ℚ) : Cost) ≠ (0 : Cost) := by
  refine ⟨by decide, by decide, by decide⟩

/-- C2 (amended): the self entry `(n, n)` has cost `0` after
initialization; `updateDV` preserves a zero self entry whenever the
node's current mapping and every received cost are non-negative (which
non-negative edge weights guarantee); and `DVAlgoLinkChange` with
`sourceid ≠ destid` leaves every node's self entry untouched.  (A call
with `sourceid = destid` overwrites the self entry — see the
counterexample.) -/
theorem C2_self_distance :
    (∀ (g : DVGraph) (n : String), n ∈ keys g → tableOf g n = [] →
      tfind (tableOf (initDVtable g) n) n n = some 0) ∧
    (∀ (g : DVGraph) (n : String),
      dlookup (dictOfTable (tableOf g n)) n = some 0 →
      (∀ p ∈ dictOfTable (tableOf g n), (0 : Cost) ≤ p.2) →
      (∀ t ∈ mailboxOf g n, ∀ r ∈ t, (0 : Cost) ≤ r.2.2) →
      tfind ((updateDV g n).2.1) n n = some 0) ∧
    (∀ (g : DVGraph) (a b : String) (c : ℚ), a ≠ b → ∀ n,
      tfind (tableOf (DVAlgoLinkChange g a b c).1 n) n n = tfind (tableOf g n) n n) := by
  refine ⟨?_, ?_, ?_⟩
  · intro g n hn hempty
    rw [tableOf_initDVtable g n hn hempty, tfind_map_keys (keys g) n n _ hn]
    simp [calculate_cost]
  · intro g n hself hpos hmb
    obtain ⟨-, hself'⟩ :=
      processTables_inv n (mailboxOf g n) (dictOfTable (tableOf g n), false) hmb hpos hself
    rw [updateDV_table_def, tfind_rebuild]
    exact hself'
  · intro g a b c hab n
    by_cases hmem : a ∈ keys g ∧ b ∈ keys g
    · by_cases hna : n = a
      · rw [hna, tableOf_linkChange_a g a b c hmem.1 hmem.2 hab,
          tfind_replaceFirst_other (tableOf g a) a b a a ((c : ℚ) : Cost) (fun hc => hab hc.2)]
      · by_cases hnb : n = b
        · rw [hnb, tableOf_linkChange_b g a b c hmem.1 hmem.2 hab,
            tfind_replaceFirst_other (tableOf g b) b a b b ((c : ℚ) : Cost)
              (fun hc => hab hc.2.symm)]
        · rw [tableOf_linkChange_other g a b c n hna hnb]
    · rw [linkChange_notExist g a b c hmem]

/-- C2 witness: the amended claim instantiated on concrete graphs. -/
theorem C2_self_distance_witness :
    tfind (tableOf (initDVtable g3) "1") "1" "1" = some 0 ∧
    tfind ((updateDV stable2 "1").2.1) "1" "1" = some 0 ∧
    tfind (tableOf (DVAlgoLinkChange stable2 "1" "2" 7).1 "1") "1" "1"
      = tfind (tableOf stable2 "1") "1" "1" :=
  ⟨C2_self_distance.1 g3 "1" (by decide) (by decide),
   C2_self_distance.2.1 stable2 "1" (by decide) (by decide) (by decide),
   C2_self_distance.2.2 stable2 "1" "2" 7 (by decide) "1"⟩

/-- C3, counterexample: in stepped mode a declined continuation query
does not merely stop the algorithm — the code calls `os._exit(1)`,
modelled as the `RunExit.userExit` outcome.  On the spec's own worked
example the first cycle changes tables, the injected predicate declines,
and the run ends in `userExit`. -/
theorem C3_counterexample :
    (DVAlgorithmBreaks g3i (fun _ => false)).2.2 = RunExit.userExit := by
  decide

/-- C3 (amended): when the continuation query declines after a cycle in
which at least one node changed, `DVAlgorithmBreaks` terminates the
hosting process itself via `os._exit(1)` (outcome `RunExit.userExit`);
the graph state returned at that exit is exactly the state at the end of
that cycle (a round that reported a change), with no further
modification. -/
theorem C3_user_halt (g : DVGraph) (dec : Nat → Bool) (g' : DVGraph) (c : Nat)
    (h : DVAlgorithmBreaks g dec = (g', c, RunExit.userExit)) :
    ∃ g0, roundStep g0 = (g', true) ∧ dec c = false :=
  breaksGo_userExit _ g dec 0 g' c h

/-- C3 witness: the worked example with a predicate that always
declines. -/
theorem C3_user_halt_witness :
    ∃ g0, roundStep g0 = ((DVAlgorithmBreaks g3i (fun _ => false)).1, true)
      ∧ (fun _ : Nat => false) (DVAlgorithmBreaks g3i (fun _ => false)).2.1 = false :=
  C3_user_halt g3i (fun _ => false) (DVAlgorithmBreaks g3i (fun _ => false)).1
    (DVAlgorithmBreaks g3i (fun _ => false)).2.1
    (by
      have hx : (DVAlgorithmBreaks g3i (fun _ => false)).2.2 = RunExit.userExit := by decide
      calc DVAlgorithmBreaks g3i (fun _ => false)
          = ((DVAlgorithmBreaks g3i (fun _ => false)).1,
             (DVAlgorithmBreaks g3i (fun _ => false)).2.1,
             (DVAlgorithmBreaks g3i (fun _ => false)).2.2) := rfl
        _ = ((DVAlgorithmBreaks g3i (fun _ => false)).1,
             (DVAlgorithmBreaks g3i (fun _ => false)).2.1, RunExit.userExit) := by rw [hx])

/-- C4, counterexample: with both nodes present but the `(1→2)` row
missing from node 1's table, the claim demands a LinkNotFound failure
with no mutation; the code instead reports success (it only returns
`'Not Exist'` for an absent node) and still rewrites the `(2→1)` row of
node 2's table — a partial mutation. -/
theorem C4_counterexample :
    (DVAlgoLinkChange cs4 "1" "2" 5).2 = LinkStatus.ok ∧
    tableOf (DVAlgoLinkChange cs4 "1" "2" 5).1 "2" = [("2", "1", ((5 : ℚ) : Cost))] ∧
    tableOf cs4 "2" = [("2", "1", ((7 : ℚ) : Cost))] := by
  refine ⟨by decide, by decide, by decide⟩

/-- C4 (amended): `DVAlgoLinkChange` fails with LinkNotFound
(`'Not Exist'`) exactly when `a` or `b` is absent from the graph, and
then the state is untouched.  When both are present the call always
reports success: it overwrites the first `(a→b)` row of `a`'s table and
the first `(b→a)` row of `b`'s table, each only if such a row exists, so
a missing row on one side yields a partial mutation of the other side;
all other nodes' tables are unchanged. -/
theorem C4_link_change (g : DVGraph) (a b : String) (c : ℚ) :
    ((DVAlgoLinkChange g a b c).2 = LinkStatus.notExist ↔ (a ∉ keys g ∨ b ∉ keys g)) ∧
    (a ∉ keys g ∨ b ∉ keys g → (DVAlgoLinkChange g a b c).1 = g) ∧
    (a ∈ keys g → b ∈ keys g → a ≠ b →
      tableOf (DVAlgoLinkChange g a b c).1 a = replaceFirst (tableOf g a) a b ((c : ℚ) : Cost) ∧
      tableOf (DVAlgoLinkChange g a b c).1 b = replaceFirst (tableOf g b) b a ((c : ℚ) : Cost) ∧
      ∀ m, m ≠ a → m ≠ b → tableOf (DVAlgoLinkChange g a b c).1 m = tableOf g m) := by
  refine ⟨?_, ?_, ?_⟩
  · by_cases h : a ∈ keys g ∧ b ∈ keys g
    · rw [linkChange_status_ok g a b c h.1 h.2]
      apply iff_of_false
      · intro hx
        exact LinkStatus.noConfusion hx
      · rintro (hx | hx)
        · exact hx h.1
        · exact hx h.2
    · rw [linkChange_notExist g a b c h]
      exact iff_of_true rfl (not_and_or.mp h)
  · intro h
    have h' : ¬(a ∈ keys g ∧ b ∈ keys g) := by
      rintro ⟨ha, hb⟩
      rcases h with h | h
      · exact h ha
      · exact h hb
    rw [linkChange_notExist g a b c h']
  · intro ha hb hab
    exact ⟨tableOf_linkChange_a g a b c ha hb hab,
      tableOf_linkChange_b g a b c ha hb hab,
      fun m hma hmb => tableOf_linkChange_other g a b c m hma hmb⟩

/-- C4 witness: a successful mutation on the converged two-node graph. -/
theorem C4_link_change_witness :
    tableOf (DVAlgoLinkChange stable2 "1" "2" 5).1 "1"
        = replaceFirst (tableOf stable2 "1") "1" "2" ((5 : ℚ) : Cost) ∧
    tableOf (DVAlgoLinkChange stable2 "1" "2" 5).1 "2"
        = replaceFirst (tableOf stable2 "2") "2" "1" ((5 : ℚ) : Cost) :=
  ⟨((C4_link_change stable2 "1" "2" 5).2.2 (by decide) (by decide) (by decide)).1,
   ((C4_link_change stable2 "1" "2" 5).2.2 (by decide) (by decide) (by decide)).2.1⟩

/-- C5, counterexample: on the empty graph the cap is `0 × 50 = 0`
cycles, yet `DVAlgorithmNoBreaks`'s `while not stable` loop always
executes its body at least once, so it runs 1 cycle — more than the
claimed bound. -/
theorem C5_counterexample :
    ¬ ((DVAlgorithmNoBreaks emptyG).2.1 ≤ (keys emptyG).length * 50) := by
  decide

/-- C5 (amended): both convergence loops terminate; `DVAlgorithmBreaks`
executes at most `node count × 50` cycles, and `DVAlgorithmNoBreaks` at
most `max (node count × 50) 1` cycles (its loop always runs at least one
cycle, which exceeds the cap only on the empty graph).  Reaching the cap
is a normal return (`RunExit.cap`) carrying the current tables, not an
error. -/
theorem C5_round_bounds (g : DVGraph) (dec : Nat → Bool) :
    (DVAlgorithmBreaks g dec).2.1 ≤ (keys g).length * 50 ∧
    (DVAlgorithmNoBreaks g).2.1 ≤ max ((keys g).length * 50) 1 := by
  constructor
  · have h := breaksGo_cycles_le ((keys g).length * 50) g dec 0
    simpa using h
  · have h := noBreaksGo_cycles_le ((keys g).length * 50) g 0 ((keys g).length * 50)
    simpa using h

/-- C6: on a graph with distinct node names and empty tables (the state
in which the program calls it), `initDVtable` gives node `n` exactly the
list of rows `(n, d, calculate_cost g n d)` for the keys `d` in order;
each destination owns exactly one row; and the cost is `0` for `n`
itself, the first direct edge weight when an edge to `d` exists, and `∞`
otherwise. -/
theorem C6_init_table (g : DVGraph) (n : String) (hnd : NodupKeys g) (hn : n ∈ keys g)
    (hempty : tableOf g n = []) :
    tableOf (initDVtable g) n = (keys g).map (fun d => (n, d, calculate_cost g n d)) ∧
    (∀ d ∈ keys g,
      (tableOf (initDVtable g) n).filter (fun r => r.2.1 = d)
        = [(n, d, calculate_cost g n d)]) ∧
    calculate_cost g n n = 0 ∧
    (∀ d, n ≠ d → ∀ e, (edgesOf g n).find? (fun e => e.1 = d) = some e →
      calculate_cost g n d = (e.2 : Cost)) ∧
    (∀ d, n ≠ d → (edgesOf g n).find? (fun e => e.1 = d) = none →
      calculate_cost g n d = ⊤) := by
  refine ⟨tableOf_initDVtable g n hn hempty, ?_, ?_, ?_, ?_⟩
  · intro d hd
    rw [tableOf_initDVtable g n hn hempty, List.filter_map]
    have hcomp : ((fun r : Row => decide (r.2.1 = d)) ∘ fun d' => (n, d', calculate_cost g n d'))
        = fun d' => decide (d' = d) := rfl
    rw [hcomp, filter_eq_of_nodup (keys g) d hnd hd]
    rfl
  · simp [calculate_cost]
  · intro d hne e he
    simp [calculate_cost, hne, he]
  · intro d hne he
    simp [calculate_cost, hne, he]

/-- C6 witness: the worked-example topology. -/
theorem C6_init_table_witness :
    tableOf (initDVtable g3) "1"
        = (keys g3).map (fun d => ("1", d, calculate_cost g3 "1" d)) ∧
    (tableOf (initDVtable g3) "1").filter (fun r => r.2.1 = "3")
        = [("1", "3", calculate_cost g3 "1" "3")] ∧
    calculate_cost g3 "1" "1" = 0 :=
  ⟨(C6_init_table g3 "1" (by decide) (by decide) (by decide)).1,
   (C6_init_table g3 "1" (by decide) (by decide) (by decide)).2.1 "3" (by decide),
   (C6_init_table g3 "1" (by decide) (by decide) (by decide)).2.2.1⟩

/-- C7: a successful `DVAlgoLinkChange(a, b, newCost)` — both nodes
present and exactly one direct row in each direction — sets the `(a→b)`
entry of `a`'s table and the `(b→a)` entry of `b`'s table to `newCost`
(symmetry), leaves every other node's table untouched, and leaves every
row other than the two replaced ones unchanged in place. -/
theorem C7_link_change_symmetry (g : DVGraph) (a b : String) (c : ℚ)
    (ha : a ∈ keys g) (hb : b ∈ keys g)
    (h1 : (tableOf g a).countP (fun r => decide (r.1 = a ∧ r.2.1 = b)) = 1)
    (h2 : (tableOf g b).countP (fun r => decide (r.1 = b ∧ r.2.1 = a)) = 1) :
    (DVAlgoLinkChange g a b c).2 = LinkStatus.ok ∧
    tfind (tableOf (DVAlgoLinkChange g a b c).1 a) a b = some ((c : ℚ) : Cost) ∧
    tfind (tableOf (DVAlgoLinkChange g a b c).1 b) b a = some ((c : ℚ) : Cost) ∧
    (∀ m, m ≠ a → m ≠ b → tableOf (DVAlgoLinkChange g a b c).1 m = tableOf g m) ∧
    (∀ (i : Nat) (r : Row), (tableOf g a)[i]? = some r → ¬(r.1 = a ∧ r.2.1 = b) →
      (tableOf (DVAlgoLinkChange g a b c).1 a)[i]? = some r) ∧
    (∀ (i : Nat) (r : Row), (tableOf g b)[i]? = some r → ¬(r.1 = b ∧ r.2.1 = a) →
      (tableOf (DVAlgoLinkChange g a b c).1 b)[i]? = some r) := by
  have hexa : ∃ r ∈ tableOf g a, r.1 = a ∧ r.2.1 = b := by
    have hpos : 0 < (tableOf g a).countP (fun r => decide (r.1 = a ∧ r.2.1 = b)) :=
      h1 ▸ Nat.one_pos
    obtain ⟨r, hr, hp⟩ := List.countP_pos_iff.mp hpos
    exact ⟨r, hr, of_decide_eq_true hp⟩
  have hexb : ∃ r ∈ tableOf g b, r.1 = b ∧ r.2.1 = a := by
    have hpos : 0 < (tableOf g b).countP (fun r => decide (r.1 = b ∧ r.2.1 = a)) :=
      h2 ▸ Nat.one_pos
    obtain ⟨r, hr, hp⟩ := List.countP_pos_iff.mp hpos
    exact ⟨r, hr, of_decide_eq_true hp⟩
  by_cases hab : a = b
  · subst hab
    have htab := tableOf_linkChange_selfpair g a c ha
    refine ⟨linkChange_status_ok g a a c ha ha, ?_, ?_, ?_, ?_, ?_⟩
    · rw [htab]
      exact tfind_replaceFirst_same _ _ _ _ (replaceFirst_exists _ _ _ _ hexa)
    · rw [htab]
      exact tfind_replaceFirst_same _ _ _ _ (replaceFirst_exists _ _ _ _ hexa)
    · exact fun m hma _ => tableOf_linkChange_other g a a c m hma hma
    · intro i r hi hr
      rw [htab]
      exact replaceFirst_getElem _ _ _ _ i r (replaceFirst_getElem _ _ _ _ i r hi hr) hr
    · intro i r hi hr
      rw [htab]
      exact replaceFirst_getElem _ _ _ _ i r (replaceFirst_getElem _ _ _ _ i r hi hr) hr
  · have htaba := tableOf_linkChange_a g a b c ha hb hab
    have htabb := tableOf_linkChange_b g a b c ha hb hab
    refine ⟨linkChange_status_ok g a b c ha hb, ?_, ?_, ?_, ?_, ?_⟩
    · rw [htaba]
      exact tfind_replaceFirst_same _ _ _ _ hexa
    · rw [htabb]
      exact tfind_replaceFirst_same _ _ _ _ hexb
    · exact fun m hma hmb => tableOf_linkChange_other g a b c m hma hmb
    · intro i r hi hr
      rw [htaba]
      exact replaceFirst_getElem _ _ _ _ i r hi hr
    · intro i r hi hr
      rw [htabb]
      exact replaceFirst_getElem _ _ _ _ i r hi hr

/-- C7 witness: the spec's link-mutation example `mutate(1, 2, 100)` on
the converged two-node graph. -/
theorem C7_link_change_symmetry_witness :
    (DVAlgoLinkChange stable2 "1" "2" 100).2 = LinkStatus.ok ∧
    tfind (tableOf (DVAlgoLinkChange stable2 "1" "2" 100).1 "1") "1" "2"
        = some ((100 : ℚ) : Cost) ∧
    tfind (tableOf (DVAlgoLinkChange stable2 "1" "2" 100).1 "2") "2" "1"
        = some ((100 : ℚ) : Cost) :=
  ⟨(C7_link_change_symmetry stable2 "1" "2" 100 (by decide) (by decide) (by decide)
      (by decide)).1,
   (C7_link_change_symmetry stable2 "1" "2" 100 (by decide) (by decide) (by decide)
      (by decide)).2.1,
   (C7_link_change_symmetry stable2 "1" "2" 100 (by decide) (by decide) (by decide)
      (by decide)).2.2.1⟩

/-- C8, counterexample: the claim quantifies over every graph state, but
a state holding a stale row recorded under a foreign source id breaks
it: on `cs8` one full cycle reports `changed = false` for every node,
yet the very next cycle reports a change — the first cycle rewrote the
stale row `["9","3",1]` to source `"2"`, creating an advertisement that
suddenly relaxes node 1's entry for `"3"`. -/
theorem C8_counterexample :
    (roundStep cs8).2 = false ∧ (roundStep (roundStep cs8).1).2 = true := by
  refine ⟨by decide, by decide⟩

/-- C8 (amended): idempotence at stability holds for every graph state
with distinct node names whose table rows carry their owner's id in the
source field — the form `updateDV` itself always rebuilds, and the only
form reachable once every node has updated at least once.  If a full
cycle (broadcast then update, over the never-pruned mailboxes) reports
`changed = false` for every node, the next cycle also reports
`changed = false` everywhere and leaves every table exactly as it was. -/
theorem C8_stability_idempotent (g : DVGraph) (hnd : NodupKeys g)
    (hsrc : ∀ m ∈ keys g, ∀ r ∈ tableOf g m, r.1 = m)
    (hstable : (roundStep g).2 = false) :
    (roundStep (roundStep g).1).2 = false ∧
    ∀ m, tableOf (roundStep (roundStep g).1).1 m = tableOf (roundStep g).1 m := by
  have hkeys' : keys (roundStep g).1 = keys g := keys_roundStep g
  have hnd' : NodupKeys (roundStep g).1 := by
    rw [NodupKeys, hkeys']
    exact hnd
  have h0 : (keys g).any (fun m => (nodeRound g m).2) = false := by
    have h := roundStep_flag g hnd
    rw [hstable] at h
    exact h.symm
  have hall : ∀ m ∈ keys g, (nodeRound g m).2 = false := by
    intro m hm
    cases hx : (nodeRound g m).2
    · rfl
    · exfalso
      have : (keys g).any (fun m => (nodeRound g m).2) = true :=
        List.any_eq_true.mpr ⟨m, hm, hx⟩
      rw [h0] at this
      exact Bool.noConfusion this
  have hpair : ∀ m ∈ keys g, nodeRound g m = (dictOfTable (tableOf g m), false) := by
    intro m hm
    have h2 := pair_eta_false _ (hall m hm)
    obtain ⟨he, -⟩ := processTables_false m _ _ _ h2
    rw [h2, he]
  have hfix : ∀ m ∈ keys g, ∀ t ∈ mailboxOf g m ++ senderTablesFor g m, ∀ r ∈ t,
      step m (dictOfTable (tableOf g m), false) r = (dictOfTable (tableOf g m), false) := by
    intro m hm
    have h2 : processTables m (dictOfTable (tableOf g m), false)
        (mailboxOf g m ++ senderTablesFor g m) = (dictOfTable (tableOf g m), false) :=
      hpair m hm
    exact (processTables_false m _ _ _ h2).2
  have htab' : ∀ m ∈ keys g,
      tableOf (roundStep g).1 m = rebuild m (dictOfTable (tableOf g m)) := by
    intro m hm
    rw [roundStep_table g hnd m hm, hpair m hm]
  have hcc : ∀ s d, calculate_cost (roundStep g).1 s d = calculate_cost g s d :=
    calculate_cost_congr _ _ (fun mm => roundStep_edges g hnd mm)
  have hd0 : ∀ m ∈ keys g,
      dictOfTable (tableOf (roundStep g).1 m) = dictOfTable (tableOf g m) := by
    intro m hm
    rw [htab' m hm, dictOfTable_rebuild _ _ (nodupD_dictOfTable _)]
  have hsenders : ∀ m, ∀ t ∈ senderTablesFor (roundStep g).1 m, ∀ r ∈ t,
      ∃ s ∈ keys g, r ∈ tableOf g s ∧ tableOf g s ∈ senderTablesFor g m := by
    intro m t ht r hr
    obtain ⟨s, hs, hcond, hteq⟩ := (mem_senderTablesFor _ m t).mp ht
    rw [hkeys'] at hs
    have hcond' : s ≠ m ∧ calculate_cost g s m ≠ ⊤ ∧ calculate_cost g s m ≠ 0 := by
      rwa [hcc s m] at hcond
    have hrow : r ∈ tableOf g s := by
      have hts : t = rebuild s (dictOfTable (tableOf g s)) := by
        rw [hteq, htab' s hs]
      exact rebuild_subset s (tableOf g s) (hsrc s hs) r (hts ▸ hr)
    exact ⟨s, hs, hrow, (mem_senderTablesFor g m _).mpr ⟨s, hs, hcond', rfl⟩⟩
  have hfix2 : ∀ m ∈ keys g,
      ∀ t ∈ mailboxOf (roundStep g).1 m ++ senderTablesFor (roundStep g).1 m, ∀ r ∈ t,
        step m (dictOfTable (tableOf g m), false) r = (dictOfTable (tableOf g m), false) := by
    intro m hm t ht r hr
    rcases List.mem_append.mp ht with ht' | ht'
    · rw [roundStep_mailbox g hnd m hm] at ht'
      exact hfix m hm t ht' r hr
    · obtain ⟨s, hs, hrow, hmem⟩ := hsenders m t ht' r hr
      exact hfix m hm (tableOf g s) (List.mem_append.mpr (Or.inr hmem)) r hrow
  have hpair2 : ∀ m ∈ keys g,
      nodeRound (roundStep g).1 m = (dictOfTable (tableOf g m), false) := by
    intro m hm
    have hrw : nodeRound (roundStep g).1 m
        = processTables m (dictOfTable (tableOf g m), false)
            (mailboxOf (roundStep g).1 m ++ senderTablesFor (roundStep g).1 m) := by
      rw [nodeRound, hd0 m hm]
    rw [hrw]
    exact processTables_fix m _ _ (hfix2 m hm)
  constructor
  · rw [roundStep_flag _ hnd', hkeys']
    cases hany : (keys g).any (fun m => (nodeRound (roundStep g).1 m).2)
    · rfl
    · exfalso
      obtain ⟨m, hm, hx⟩ := List.any_eq_true.mp hany
      rw [hpair2 m hm] at hx
      exact Bool.noConfusion hx
  · intro m
    by_cases hm : m ∈ keys g
    · rw [roundStep_table _ hnd' m (by rw [hkeys']; exact hm), hpair2 m hm, htab' m hm]
    · rw [roundStep_table_not_mem _ hnd' m (by rw [hkeys']; exact hm)]

/-- C8 witness: the converged two-node graph. -/
theorem C8_stability_idempotent_witness :
    (roundStep (roundStep stable2).1).2 = false ∧
    tableOf (roundStep (roundStep stable2).1).1 "1" = tableOf (roundStep stable2).1 "1" :=
  ⟨(C8_stability_idempotent stable2 (by decide) (by decide) (by decide)).1,
   (C8_stability_idempotent stable2 (by decide) (by decide) (by decide)).2 "1"⟩

/-- C9: relaxation is monotone.  For every destination `d` with a cost
`c` in the node's mapping before `updateDV` (the cost the code itself
reads, i.e. the last row for `d`), the returned table still has a row
for `d` and its cost is `≤ c`: `updateDV` never increases an existing
cost and never drops an existing destination. -/
theorem C9_relaxation_monotone (g : DVGraph) (n d : String) (c : Cost)
    (h : dlookup (dictOfTable (tableOf g n)) d = some c) :
    ∃ c', tfindD ((updateDV g n).2.1) d = some c' ∧ c' ≤ c := by
  obtain ⟨c', hc', hle⟩ := dlookup_processTables_le n (mailboxOf g n)
    (dictOfTable (tableOf g n), false) d c h
  refine ⟨c', ?_, hle⟩
  rw [updateDV_table_def, tfindD_rebuild]
  exact hc'

/-- C9 witness. -/
theorem C9_relaxation_monotone_witness :
    ∃ c', tfindD ((updateDV stable2 "1").2.1) "2" = some c' ∧ c' ≤ ((1 : ℚ) : Cost) :=
  C9_relaxation_monotone stable2 "1" "2" ((1 : ℚ) : Cost) (by decide)

/-- C10: `DVAlgoLinkChange` never touches the graph structure — every
node's edge list, the key set, every `calculate_cost` value, and hence
the `(sender, receiver)` pairs `sendDVtoNeighbor` transmits over are all
exactly as before the mutation, whatever its arguments and outcome. -/
theorem C10_link_change_graph_frame (g : DVGraph) (a b : String) (c : ℚ) :
    (∀ m, edgesOf (DVAlgoLinkChange g a b c).1 m = edgesOf g m) ∧
    keys (DVAlgoLinkChange g a b c).1 = keys g ∧
    (∀ s d, calculate_cost (DVAlgoLinkChange g a b c).1 s d = calculate_cost g s d) ∧
    sendPairs (DVAlgoLinkChange g a b c).1 = sendPairs g := by
  have hedge : ∀ m, edgesOf (DVAlgoLinkChange g a b c).1 m = edgesOf g m := by
    intro m
    by_cases h : a ∈ keys g ∧ b ∈ keys g
    · rw [linkChange_graph_def g a b c h.1 h.2, edgesOf_setTableWith, edgesOf_setTableWith]
    · rw [linkChange_notExist g a b c h]
  have hcc : ∀ s d, calculate_cost (DVAlgoLinkChange g a b c).1 s d = calculate_cost g s d :=
    calculate_cost_congr _ _ hedge
  refine ⟨hedge, keys_linkChange g a b c, hcc, ?_⟩
  rw [sendPairs, sendPairs, keys_linkChange g a b c]
  simp only [hcc]

end

end DVA
